import Mathlib

/-!
Verification of the `entrypoints` package (takluyver/entrypoints).

This file gives a shallow embedding, in Lean 4, of the parts of the source
relevant to the frozen claims:

  * `entrypoints/reader.py`: the `entry_point_pattern` regex, the metadata
    extractor `entrypoints_from_configparser`, the `EntryPointsScanner`
    (cache validation, location scanning, the `scan` generator with its
    `finally`-based cache flush, `write_user_cache`, `atomic_json_dump`),
    and `iter_all_epinfo`;
  * `entrypoints/__init__.py`: `EntryPoint.from_string`, `get_single`,
    `get_group_all`.

Python strings are embedded as Lean `String` / `List Char`; Python dicts
holding JSON-shaped cache data are embedded as association lists; the
`None` value is embedded as `Option.none`; raised exceptions are embedded
as `Except.error` values or explicit flags.  Modification times (floats
that the code only ever compares for equality, plus the `-1` sentinel) are
embedded as `Int`.
-/

namespace Entrypoints

/-! ## Character classes

`\w` in a Python 3 pattern matches word characters (ASCII letters, digits,
the underscore, plus non-ASCII word characters; only the ASCII fragment is
relevant here) and `\s` matches whitespace. -/

/-- Python regex `\w` (restricted to the ASCII fragment). -/
def isWordChar (c : Char) : Bool :=
  c.isAlphanum || c = '_'

/-- Python regex `\s` / `str.strip` whitespace: space, tab, newline,
vertical tab, form feed, carriage return. -/
def isPySpace (c : Char) : Bool :=
  c = ' ' || c = '\t' || c = '\n' || c = '\x0b' || c = '\x0c' || c = '\r'

/-- Python string comparison: lexicographic by code point.  (Lean's own
`String.le` is not used because its implementation does not reduce in the
kernel.) -/
def charsLe : List Char → List Char → Bool
  | [], _ => true
  | _ :: _, [] => false
  | a :: as, b :: bs =>
    if a < b then true
    else if b < a then false
    else charsLe as bs

/-- `s <= t` on Python strings. -/
def strLe (s t : String) : Bool :=
  charsLe s.data t.data

/-! ## The entry-point regex

`entry_point_pattern` in `reader.py` (a verbose-mode pattern; literal
whitespace in the pattern source is insignificant):

    (?P<modulename>\w+(\.\w+)*)
    (:(?P<objectname>\w+(\.\w+)*))?
    \s*
    (\[(?P<extras>.+)\])?
    $

used with `re.match`, so it is anchored at the start; `$` matches at the
end of the string or just before a single trailing newline.  `.` does not
match a newline.  The pattern is deterministic in the sense that greedy
maximal-munch matching of each piece agrees with backtracking semantics:
after the dotted `modulename`/`objectname` parts the rest of the pattern
can never consume a word character or a dot, after `\s*` it can never
consume whitespace, and the bracketed extras group is forced to end at the
closing bracket whose tail satisfies `$`. -/

/-- Greedily munch `\\w+(\\.\\w+)*` from the front of `s`: the fuel-indexed
worker.  The fuel only bounds the recursion depth (each recursive call
drops at least two characters, so `s.length` fuel always suffices, and a
successful return is correct for any fuel); it makes the recursion
structural, so that the function evaluates inside the kernel. -/
def munchDottedFuel : Nat → List Char → Option (List Char × List Char)
  | 0, _ => none
  | fuel + 1, s =>
    if s.takeWhile isWordChar = [] then none
    else
      match s.dropWhile isWordChar with
      | c :: r' =>
        if c = '.' then
          match munchDottedFuel fuel r' with
          | some m2r2 => some (s.takeWhile isWordChar ++ '.' :: m2r2.1, m2r2.2)
          | none => some (s.takeWhile isWordChar, c :: r')
        else some (s.takeWhile isWordChar, c :: r')
      | [] => some (s.takeWhile isWordChar, [])

/-- Greedily munch `\\w+(\\.\\w+)*` from the front of `s`; return the
matched prefix and the rest, or `none` if `s` does not start with a word
character. -/
def munchDotted (s : List Char) : Option (List Char × List Char) :=
  munchDottedFuel s.length s

/-- The result of a successful match of `entry_point_pattern`: the three
named capture groups. -/
structure RefMatch where
  modulename : List Char
  objectname : Option (List Char)
  extras : Option (List Char)
deriving Repr, DecidableEq

/-- The `(:(?P<objectname>\\w+(\\.\\w+)*))?` part: if the residue after
the module starts with a colon and a dotted name follows, consume them;
otherwise the optional group matches nothing (and a leading colon that is
not followed by a dotted name is left in place, making the overall match
fail at the tail). -/
def objStep (r1 : List Char) : Option (List Char) × List Char :=
  match r1 with
  | c :: r1' =>
    if c = ':' then
      match munchDotted r1' with
      | some or2 => (some or2.1, or2.2)
      | none => (none, c :: r1')
    else (none, c :: r1')
  | [] => (none, [])

/-- The bracket contents check of the extras group, on the reversed
residue after the opening bracket: the last character must be `]` (then
`$` matches at the end of the string) or the last two characters must be
`]` then a newline (then `$` matches just before that trailing newline);
the payload in between must be nonempty and newline-free (`.+`). -/
def extrasRev : List Char → Option (List Char)
  | d :: rev1 =>
    if d = ']' then
      if rev1.reverse ≠ [] && rev1.reverse.all (fun x => x ≠ '\n') then
        some rev1.reverse
      else none
    else if d = '\n' then
      match rev1 with
      | e :: rev2 =>
        if e = ']' then
          if rev2.reverse ≠ [] && rev2.reverse.all (fun x => x ≠ '\n') then
            some rev2.reverse
          else none
        else none
      | [] => none
    else none
  | [] => none

/-- The `(\\[(?P<extras>.+)\\])?$` tail: `r3` must be `[` followed by a
nonempty newline-free payload, a `]`, and then the end of the string or a
single trailing newline. -/
def extrasTail (r3 : List Char) : Option (List Char) :=
  match r3 with
  | c :: rest => if c = '[' then extrasRev rest.reverse else none
  | [] => none

/-- The `\\s*` munch followed by the optional extras group and the `$`
anchor.  After `\\s*` the residue cannot begin with whitespace (in
particular not with a newline), so the `$`-before-trailing-newline case
is entirely handled inside `extrasTail`. -/
def tailStep (m : List Char) (obj : Option (List Char)) (r2 : List Char) :
    Option RefMatch :=
  if r2.dropWhile isPySpace = [] then some ⟨m, obj, none⟩
  else
    match extrasTail (r2.dropWhile isPySpace) with
    | some payload => some ⟨m, obj, some payload⟩
    | none => none

/-- `entry_point_pattern.match(s)`: `none` embeds a failed match (the
match object being `None`), `some m` a successful one with the three
capture groups. -/
def entry_point_pattern (s : List Char) : Option RefMatch :=
  match munchDotted s with
  | none => none
  | some mr1 => tailStep mr1.1 (objStep mr1.2).1 (objStep mr1.2).2

/-! ## Splitting extras -/

/-- Python `re.split(',\s*', s)`: split on each comma and drop the
whitespace that immediately follows it.  (Equivalent to splitting on bare
commas and then stripping leading whitespace from every piece except the
first.) -/
def splitCommaWs (s : List Char) : List (List Char) :=
  match s.splitOn ',' with
  | [] => []
  | p :: ps => p :: ps.map (fun q => q.dropWhile isPySpace)

/-- Python `str.strip()`: drop whitespace from both ends. -/
def pyStrip (s : List Char) : List Char :=
  ((s.dropWhile isPySpace).reverse.dropWhile isPySpace).reverse

/-- `[e.strip() for e in extras.split(',')]` in
`entrypoints_from_configparser`. -/
def splitCommaStrip (s : List Char) : List (List Char) :=
  (s.splitOn ',').map pyStrip

/-! ## Data model -/

/-- One entry-point record as stored in the cache / yielded by the reader:
the dict `{'group': ..., 'name': ..., 'module_name': ..., 'object_name':
..., 'extras': ...}` built in `entrypoints_from_configparser`. -/
structure EpInfo where
  group : String
  name : String
  module_name : String
  object_name : Option String
  extras : Option (List String)
deriving Repr, DecidableEq

/-- One distribution's scan result: the dict `{'name': ..., 'version':
..., 'entrypoints': ...}`.  `name`/`version` are `None` when the
metadata directory or archive name contains no hyphen. -/
structure Distro where
  name : Option String
  version : Option String
  entrypoints : List EpInfo
deriving Repr, DecidableEq

/-- One location's scan result: the dict `{'mtime': ..., 'isdir': ...,
'distributions': ...}`. -/
structure LocationEP where
  mtime : Int
  isdir : Bool
  distributions : List Distro
deriving Repr, DecidableEq

/-- `entrypoints.Distribution`. -/
structure Distribution where
  name : Option String
  version : Option String
deriving Repr, DecidableEq

/-- `entrypoints.EntryPoint`. -/
structure EntryPoint where
  name : String
  module_name : String
  object_name : Option String
  extras : Option (List String)
  distro : Option Distribution
deriving Repr, DecidableEq

/-! ## `EntryPoint.from_string` (`__init__.py`) -/

/-- `EntryPoint.from_string(epstr, name, distro)`: match
`entry_point_pattern` against `epstr`; on success build the `EntryPoint`
(splitting a present extras payload with `re.split(',\s*', ...)`), on
failure raise `BadEntryPoint(epstr)` — embedded as `Except.error` carrying
the offending string. -/
def EntryPoint.from_string (epstr name : String) (distro : Option Distribution) :
    Except String EntryPoint :=
  match entry_point_pattern epstr.data with
  | some m =>
    .ok ⟨name, String.mk m.modulename, m.objectname.map String.mk,
          m.extras.map (fun p => (splitCommaWs p).map String.mk), distro⟩
  | none => .error epstr

/-! ## `entrypoints_from_configparser` (`reader.py`)

The configparser object is embedded as an association list from section
(group) names to association lists from entry names to raw entry-point
strings; `sorted(cp.items())` / `sorted(group.items())` sort these by key
(section and option names are unique within a parsed file, so comparison
never reaches the second tuple component). -/

/-- Sort an association list by its string keys (Python `sorted` on
tuples whose first components are distinct). -/
def sortByKey {α : Type} (l : List (String × α)) : List (String × α) :=
  l.mergeSort (fun a b => strLe a.1 b.1)

/-- The body of the record loop in `entrypoints_from_configparser`: parse
one `(group, name, epstr)` triple, yielding the record dict on success
and nothing (a warning is logged instead) on failure. -/
def epRecord (gname name epstr : String) : Option EpInfo :=
  match entry_point_pattern epstr.data with
  | some m =>
    some ⟨gname, name, String.mk m.modulename, m.objectname.map String.mk,
          m.extras.map (fun p => (splitCommaStrip p).map String.mk)⟩
  | none => none

/-- `entrypoints_from_configparser(cp, path)`: iterate groups and entries
in sorted order, collecting the records whose entry-point strings parse. -/
def entrypoints_from_configparser (cp : List (String × List (String × String))) :
    List EpInfo :=
  (sortByKey cp).flatMap (fun g =>
    (sortByKey g.2).filterMap (fun e => epRecord g.1 e.1 e.2))

/-- The warnings logged by `entrypoints_from_configparser`: the raw
entry-point string of every record that fails to parse, in traversal
order. -/
def configparser_warnings (cp : List (String × List (String × String))) :
    List String :=
  (sortByKey cp).flatMap (fun g =>
    (sortByKey g.2).filterMap (fun e =>
      match entry_point_pattern e.2.data with
      | some _ => none
      | none => some e.2))

/-! ## Name/version parsing and distribution sorting (`reader.py`) -/

/-- A parsed `entry_points.txt` file (what `CaseSensitiveConfigParser`
produces): section name to (option name to raw value). -/
abbrev ConfigFile := List (String × List (String × String))

/-- `osp.basename` for POSIX paths: the part after the last `/`. -/
def basename (p : String) : String :=
  String.mk (p.data.reverse.takeWhile (fun c => c ≠ '/')).reverse

/-- Python `str.endswith` (over the character lists, so that it computes
in the kernel). -/
def pyEndsWith (s suffix : String) : Bool :=
  suffix.data.isSuffixOf s.data

/-- `distro_name_version.split('-', 1)` in `entrypoints_from_dir` /
`entrypoints_from_zip`: if a hyphen is present, the name is the part
before the first hyphen and the version the rest; otherwise both are
`None` (and a warning is logged). -/
def dirNameVersion (stem : String) : Option String × Option String :=
  match stem.data.splitOn '-' with
  | n :: v :: rest =>
    (some (String.mk n), some (String.mk (List.intercalate ['-'] (v :: rest))))
  | _ => (none, none)

/-- `egg_name.split('-')[:2]` in `entrypoints_from_egg`: the first two
hyphen-separated segments; both `None` when no hyphen is present. -/
def eggNameVersion (eggName : String) : Option String × Option String :=
  match eggName.data.splitOn '-' with
  | n :: v :: _ => (some (String.mk n), some (String.mk v))
  | _ => (none, none)

/-- The sort key `"%s-%s" % (d['name'], d['version'])`; Python's `%s`
formats `None` as the string `"None"`. -/
def pyStr (o : Option String) : String :=
  match o with
  | none => "None"
  | some s => s

/-- `distributions.sort(key=lambda d: "%s-%s" % (d['name'], d['version']))`
(Python `list.sort` is stable, as is `List.mergeSort`). -/
def sortDistros (ds : List Distro) : List Distro :=
  ds.mergeSort (fun a b =>
    strLe (pyStr a.name ++ "-" ++ pyStr a.version) (pyStr b.name ++ "-" ++ pyStr b.version))

/-- `NO_CACHE_MARKER_FILE` in `reader.py`. -/
def NO_CACHE_MARKER_FILE : String := ".entrypoints_no_cache"

/-! ## Filesystem model

The scanner consults the filesystem through `os.stat`, `os.path.isdir`
(`stat.S_ISDIR`), `zipfile.is_zipfile`, one glob over `*.dist-info` /
`*.egg-info` metadata directories, an `EGG-INFO/entry_points.txt` probe,
the no-cache marker probe, and zip member listings.  A path's current
state is embedded as: -/

/-- What a zip archive holds, as far as the scanner looks at it:
its member-name list (for the no-cache marker check and the
`EGG-INFO/entry_points.txt` lookup), the parsed
`EGG-INFO/entry_points.txt` when that member exists, and the
distributions extracted by the member loop of `entrypoints_from_zip`
(that loop is kept abstract here: no claim depends on which members it
selects). -/
structure ZipSt where
  members : List String
  zipDistros : List Distro
  eggCfg : Option ConfigFile
deriving DecidableEq

/-- The state of one filesystem path. `dirSt` carries the mtime, the
globbed metadata files (each as the stem
`osp.splitext(osp.basename(info_dir))[0]` paired with the parsed
`entry_points.txt`), whether the no-cache marker file exists at the root,
and the parsed `EGG-INFO/entry_points.txt` when that file exists.
`fileSt` is an existing non-directory, a readable zip archive or not. -/
inductive PathState where
  | missing : PathState
  | dirSt (mtime : Int) (infoDirs : List (String × ConfigFile)) (marker : Bool)
      (eggCfg : Option ConfigFile) : PathState
  | fileSt (mtime : Int) (zip : Option ZipSt) : PathState
deriving DecidableEq

/-- The filesystem: every path has a state. -/
def FS := String → PathState

/-! ## The scanner state and cache store (`EntryPointsScanner`) -/

/-- `EntryPointsScanner`'s mutable state: whether a cache file is
configured (`locate_cache_file()` returned non-`None`), the in-memory
`working_cache` (a JSON object: insertion-ordered mapping from path to a
`LocationScanResult` dict or JSON `null`), and `non_cacheable_paths`. -/
structure ScannerState where
  cacheFileEnabled : Bool
  workingCache : List (String × Option LocationEP)
  nonCacheable : List String
deriving DecidableEq

/-- Raw lookup in the working cache (distinguishes a missing key from a
stored `null`). -/
def lookupPath (wc : List (String × Option LocationEP)) (p : String) :
    Option (Option LocationEP) :=
  match wc with
  | [] => none
  | (q, v) :: rest => if q = p then some v else lookupPath rest p

/-- Python `self.working_cache.get(path)`: a missing key and a stored
`null` both come back as `None`. -/
def cacheGet (wc : List (String × Option LocationEP)) (p : String) :
    Option LocationEP :=
  (lookupPath wc p).join

/-- Python `self.working_cache[path] = v`: replace in place, else append
(dicts preserve insertion order). -/
def cacheSet (wc : List (String × Option LocationEP)) (p : String)
    (v : Option LocationEP) : List (String × Option LocationEP) :=
  match wc with
  | [] => [(p, v)]
  | (q, w) :: rest => if q = p then (p, v) :: rest else (q, w) :: cacheSet rest p v

/-- `self.non_cacheable_paths.add(path)`. -/
def addNonCacheable (st : ScannerState) (p : String) : ScannerState :=
  if p ∈ st.nonCacheable then st else { st with nonCacheable := p :: st.nonCacheable }

/-! ## Location scanning (`EntryPointsScanner`, `reader.py`) -/

/-- `entrypoints_from_dir(path, path_st)`: build one distribution per
globbed metadata file, sort by the name-version key, record the path as
non-cacheable when the marker file exists, and return the
`LocationScanResult` with `isdir` true. -/
def entrypoints_from_dir (st : ScannerState) (path : String) (mt : Int)
    (infoDirs : List (String × ConfigFile)) (marker : Bool) :
    LocationEP × ScannerState :=
  let distros := sortDistros (infoDirs.map (fun sc =>
    ⟨(dirNameVersion sc.1).1, (dirNameVersion sc.1).2, entrypoints_from_configparser sc.2⟩))
  let st' := if marker then addNonCacheable st path else st
  (⟨mt, true, distros⟩, st')

/-- `entrypoints_from_zip(path, path_st)`: sort the extracted
distributions, record the path as non-cacheable when
`NO_CACHE_MARKER_FILE` is among the member names, and return the result —
with `isdir` true, exactly as the source writes it. -/
def entrypoints_from_zip (st : ScannerState) (path : String) (mt : Int)
    (z : ZipSt) : LocationEP × ScannerState :=
  let distros := sortDistros z.zipDistros
  let st' := if NO_CACHE_MARKER_FILE ∈ z.members then addNonCacheable st path else st
  (⟨mt, true, distros⟩, st')

/-- `entrypoints_from_egg(path)`: `os.stat` first (so a missing path
raises, embedded as `Except.error ()`); name/version from the basename;
for a directory, read `EGG-INFO/entry_points.txt` if it exists (zero
entry points otherwise); for a zip, return `None` when the archive lacks
that member; for a path that is neither, zero entry points. -/
def entrypoints_from_egg (fs : FS) (path : String) :
    Except Unit (Option LocationEP) :=
  match fs path with
  | .missing => .error ()
  | .dirSt mt _ _ eggCfg =>
    let eps := match eggCfg with
      | some cfg => entrypoints_from_configparser cfg
      | none => []
    .ok (some ⟨mt, true,
      [⟨(eggNameVersion (basename path)).1, (eggNameVersion (basename path)).2, eps⟩]⟩)
  | .fileSt mt z =>
    match z with
    | some zs =>
      match zs.eggCfg with
      | none => .ok none
      | some cfg =>
        .ok (some ⟨mt, false,
          [⟨(eggNameVersion (basename path)).1, (eggNameVersion (basename path)).2,
            entrypoints_from_configparser cfg⟩]⟩)
    | none =>
      .ok (some ⟨mt, false,
        [⟨(eggNameVersion (basename path)).1, (eggNameVersion (basename path)).2, []⟩]⟩)

/-- The cache-validity test of `entrypoints_for_path`:
`path_cache and (path_st.st_mtime == path_cache['mtime']) and (isdir ==
path_cache['isdir'])`. -/
def validCache (pc : Option LocationEP) (mt : Int) (isdir : Bool) : Bool :=
  match pc with
  | some c => c.mtime = mt && c.isdir = isdir
  | none => false

/-- `entrypoints_for_path(path)`: for `.egg` paths trust any cached entry
unconditionally, else scan the egg; otherwise stat (a missing path gives
the `{'mtime': -1, 'isdir': False, 'distributions': []}` result), return
a valid cached entry unchanged, else scan a directory or a zip archive —
and for an existing path that is neither, fall off the end of the
function, returning Python's implicit `None`. -/
def entrypoints_for_path (st : ScannerState) (fs : FS) (path : String) :
    Except Unit (Option LocationEP × ScannerState) :=
  if pyEndsWith path ".egg" then
    match cacheGet st.workingCache path with
    | some c => .ok (some c, st)
    | none =>
      match entrypoints_from_egg fs path with
      | .ok r => .ok (r, st)
      | .error e => .error e
  else
    match fs path with
    | .missing => .ok (some ⟨-1, false, []⟩, st)
    | .dirSt mt infoDirs marker _ =>
      if validCache (cacheGet st.workingCache path) mt true then
        .ok (cacheGet st.workingCache path, st)
      else
        .ok (some (entrypoints_from_dir st path mt infoDirs marker).1,
             (entrypoints_from_dir st path mt infoDirs marker).2)
    | .fileSt mt z =>
      if validCache (cacheGet st.workingCache path) mt false then
        .ok (cacheGet st.workingCache path, st)
      else
        match z with
        | some zs =>
          .ok (some (entrypoints_from_zip st path mt zs).1,
               (entrypoints_from_zip st path mt zs).2)
        | none => .ok (none, st)

/-! ## The scan session (`EntryPointsScanner.scan`) -/

/-- The outcome of one loop iteration of `scan`: the yielded value
(`none` when `entrypoints_for_path` raised instead of yielding), the
scanner state afterwards, and whether this iteration set
`cache_modified`. -/
structure StepResult where
  out : Option (Option LocationEP)
  st : ScannerState
  dirty : Bool
deriving DecidableEq

/-- One iteration of the `scan` loop: compute the location's result,
store it when it differs from `working_cache.get(path)`, and set
`cache_modified` when it does and the path is not non-cacheable (checked
after the scan, which is what records marker paths). -/
def scanStep (fs : FS) (st : ScannerState) (path : String) : StepResult :=
  match entrypoints_for_path st fs path with
  | .error _ => ⟨none, st, false⟩
  | .ok (r, st') =>
    if r = cacheGet st'.workingCache path then ⟨some r, st', false⟩
    else ⟨some r, { st' with workingCache := cacheSet st'.workingCache path r },
          decide (path ∉ st'.nonCacheable)⟩

/-- `write_user_cache`'s `data`: the working cache with non-cacheable
paths filtered out (this is what is then serialized and written
atomically). -/
def write_user_cache (st : ScannerState) : List (String × Option LocationEP) :=
  st.workingCache.filter (fun e => decide (e.1 ∉ st.nonCacheable))

/-- The outcome of a whole `scan` session: the values yielded, the final
state, the final `cache_modified` flag, whether the generator raised, and
the deferred flush (`wrote` true with the persisted data exactly when the
`finally` block calls `write_user_cache`). -/
structure ScanOutcome where
  outputs : List (Option LocationEP)
  final : ScannerState
  modified : Bool
  errored : Bool
  wrote : Bool
  persisted : Option (List (String × Option LocationEP))
deriving DecidableEq

/-- The `finally` block of `scan`: flush if and only if `cache_modified`
and a cache file is configured. -/
def finishScan (st : ScannerState) (modified errored : Bool)
    (outputs : List (Option LocationEP)) : ScanOutcome :=
  if modified && st.cacheFileEnabled then
    ⟨outputs, st, modified, errored, true, some (write_user_cache st)⟩
  else
    ⟨outputs, st, modified, errored, false, none⟩

/-- Run the `scan` generator: `pulled` is how many values the consumer
pulls before abandoning the sequence (pulling past the end just exhausts
it).  Abandonment — by early termination or because the consuming code
raises between pulls — stops the loop; the `finally` block runs in every
case, including when `entrypoints_for_path` itself raises mid-loop. -/
def scanRunAux (fs : FS) (st : ScannerState) (modified : Bool)
    (locs : List String) (pulled : Nat) : ScanOutcome :=
  match locs, pulled with
  | [], _ => finishScan st modified false []
  | _ :: _, 0 => finishScan st modified false []
  | p :: rest, k + 1 =>
    match (scanStep fs st p).out with
    | none =>
      finishScan (scanStep fs st p).st
        (modified || (scanStep fs st p).dirty) true []
    | some o =>
      { scanRunAux fs (scanStep fs st p).st
          (modified || (scanStep fs st p).dirty) rest k with
        outputs := o :: (scanRunAux fs (scanStep fs st p).st
          (modified || (scanStep fs st p).dirty) rest k).outputs }

/-- `scan(locations)` consumed for `pulled` items. -/
def scanRun (fs : FS) (st : ScannerState) (locs : List String) (pulled : Nat) :
    ScanOutcome :=
  scanRunAux fs st false locs pulled

/-- The scanner state after processing a list of locations (the state
evolution of the `scan` loop, without the finalization bookkeeping). -/
def foldSteps (fs : FS) (st : ScannerState) (paths : List String) : ScannerState :=
  paths.foldl (fun s p => (scanStep fs s p).st) st

/-! ## `atomic_json_dump` (`reader.py`) -/

/-- `osp.dirname` for POSIX paths (`posixpath.dirname`): everything up to
the last `/`, with trailing slashes stripped unless the result is all
slashes. -/
def dirnamePy (p : String) : String :=
  let head := (p.data.reverse.dropWhile (fun c => c ≠ '/')).reverse
  if head = [] then ""
  else if head.all (fun c => c = '/') then String.mk head
  else String.mk (head.reverse.dropWhile (fun c => c = '/')).reverse

/-- The two files `atomic_json_dump` touches: the target path's contents
and the temporary file (its directory and contents) while it exists. -/
structure DumpFs where
  target : Option String
  temp : Option (String × String)
deriving DecidableEq

/-- `atomic_json_dump(obj, path)`, with `ser` the complete serialization
of `obj` and `halfWritten` whatever prefix `json.dump` managed to emit
when it fails.  Returns the intermediate filesystem states after each
step (mkstemp; json.dump, complete or interrupted; then either the
`except` branch's `os.unlink` + re-raise, or the `else` branch's
`replace`) and whether the error propagated. -/
def atomic_json_dump (st0 : DumpFs) (path ser : String) (writeFails : Bool)
    (halfWritten : String) : List DumpFs × Bool :=
  let st1 : DumpFs := { st0 with temp := some (dirnamePy path, "") }
  if writeFails then
    let st2 : DumpFs := { st1 with temp := some (dirnamePy path, halfWritten) }
    let st3 : DumpFs := { st2 with temp := none }
    ([st1, st2, st3], true)
  else
    let st2 : DumpFs := { st1 with temp := some (dirnamePy path, ser) }
    let st3 : DumpFs := { target := some ser, temp := none }
    ([st1, st2, st3], false)

/-! ## `iter_all_epinfo`, `get_single`, `get_group_all`

`iter_all_epinfo` iterates the scan results location by location and each
location's distributions in order with one shared `distro_names_seen`
set; that nested loop visits exactly the concatenation of the
distribution lists.

The query functions of `__init__.py` call it as
`iter_all_epinfo(path=path, cache_file=cache_file)`, but
`reader.iter_all_epinfo` is declared `def iter_all_epinfo(path=None)`.
Python binds a call's arguments when the call is made — for a generator
function too, before any of its code runs — so the spurious `cache_file`
keyword raises `TypeError` on every call.  The call-time binding step is
embedded explicitly below. -/

/-- The body of `iter_all_epinfo` over the flattened distribution
stream, carrying `distro_names_seen`. -/
def shadowGo (seen : List (Option String)) : List Distro → List (Distro × EpInfo)
  | [] => []
  | d :: rest =>
    if d.name ∈ seen then shadowGo seen rest
    else (d.entrypoints.map (fun e => (d, e))) ++ shadowGo (d.name :: seen) rest

/-- `iter_all_epinfo`, given the per-location scan results. -/
def iter_all_epinfo (results : List LocationEP) : List (Distro × EpInfo) :=
  shadowGo [] (results.flatMap (fun l => l.distributions))

/-- Build the `EntryPoint` object the query layer yields for one
`(distro, epinfo)` pair. -/
def buildEntryPoint (d : Distro) (e : EpInfo) : EntryPoint :=
  ⟨e.name, e.module_name, e.object_name, e.extras, some ⟨d.name, d.version⟩⟩

/-- The parameter list of `reader.iter_all_epinfo`:
`def iter_all_epinfo(path=None)`. -/
def iter_all_epinfo_params : List String := ["path"]

/-- The keyword arguments the query functions of `__init__.py` pass in
`iter_all_epinfo(path=path, cache_file=cache_file)`. -/
def query_call_kwargs : List String := ["path", "cache_file"]

/-- Python's call-time argument binding: a keyword argument that is not
among the callee's parameters raises `TypeError` before any code of the
callee runs (also when the callee is a generator function). -/
def pyKwCall {α : Type} (params kwargs : List String) (body : α) :
    Except String α :=
  if kwargs.all (fun k => params.contains k) then .ok body
  else .error "TypeError"

/-- What a query-layer call can raise: the `TypeError` from binding the
arguments of `iter_all_epinfo`, or `NoSuchEntryPoint(group, name)`. -/
inductive QueryError where
  | typeError (msg : String) : QueryError
  | noSuchEntryPoint (group name : String) : QueryError
deriving Repr, DecidableEq

/-- `get_single(group, name, path, cache_file)`: call
`iter_all_epinfo(path=path, cache_file=cache_file)` (the binding raises
`TypeError`); were the iteration reached, the first matching pair would
win, with `NoSuchEntryPoint(group, name)` raised when it is
exhausted. -/
def get_single (group name : String) (results : List LocationEP) :
    Except QueryError EntryPoint :=
  match pyKwCall iter_all_epinfo_params query_call_kwargs
      (iter_all_epinfo results) with
  | .error msg => .error (.typeError msg)
  | .ok pairs =>
    match pairs.find?
        (fun de => de.2.group = group && de.2.name = name) with
    | some de => .ok (buildEntryPoint de.1 de.2)
    | none => .error (.noSuchEntryPoint group name)

/-- `get_group_all(group, path, cache_file)`: call
`iter_all_epinfo(path=path, cache_file=cache_file)` (the binding raises
`TypeError`); were the iteration reached, the group's entry points would
be collected in order. -/
def get_group_all (group : String) (results : List LocationEP) :
    Except QueryError (List EntryPoint) :=
  match pyKwCall iter_all_epinfo_params query_call_kwargs
      (iter_all_epinfo results) with
  | .error msg => .error (.typeError msg)
  | .ok pairs =>
    .ok (pairs.filterMap (fun de =>
      if de.2.group = group then some (buildEntryPoint de.1 de.2) else none))

/-! ## Specification-side definitions

These definitions transcribe sentences of the specification (not the
source); the theorems below compare the source-derived functions against
them. -/

/-- The stat outcome for a path: `none` when the path is missing,
otherwise its mtime and whether it is a directory. -/
def statOf (ps : PathState) : Option (Int × Bool) :=
  match ps with
  | .missing => none
  | .dirSt mt _ _ _ => some (mt, true)
  | .fileSt mt _ => some (mt, false)

/-- All `(distro, entry-point)` pairs contributed by a list of
distributions, in order. -/
def distroPairs (ds : List Distro) : List (Distro × EpInfo) :=
  ds.flatMap (fun d => d.entrypoints.map (fun e => (d, e)))

/-- Spec-side shadowing: "first occurrence of a distribution name wins
for ALL its entry points" — keep each distribution whose name has not
occurred earlier in the stream. -/
def specFirstDistroWins : List Distro → List Distro
  | [] => []
  | d :: rest =>
    d :: specFirstDistroWins (rest.filter (fun x => x.name ≠ d.name))
termination_by l => l.length
decreasing_by
  have := List.length_filter_le (fun x => decide (x.name ≠ d.name)) rest
  simp only [List.length_cons]
  omega

/-- Spec-side extras parsing: "split a matched extras payload on commas
followed by optional whitespace, yielding an ordered sequence of trimmed
tags". -/
def specTrimmedTags (payload : List Char) : List String :=
  (splitCommaWs payload).map (fun t => String.mk (pyStrip t))

/-- The grammar `\w+(\.\w+)*`: one or more word-character segments
separated by dots. -/
inductive Dotted : List Char → Prop where
  | single (w : List Char) : w ≠ [] → (∀ c ∈ w, isWordChar c = true) → Dotted w
  | cons (w rest : List Char) : w ≠ [] → (∀ c ∈ w, isWordChar c = true) →
      Dotted rest → Dotted (w ++ '.' :: rest)

/-- Spec-side statement of a full (anchored) match of the entry-point
grammar `<module>[:<attribute>][ws][<extras>]` against `s`, binding the
three capture groups: the string decomposes into a dotted module, an
optional `:`-prefixed dotted attribute, optional whitespace, and an
optional bracketed nonempty newline-free payload — where, as with the
regex's `$` anchor, a single newline at the very end (after the extras
bracket) is tolerated. -/
def GrammarDecomp (s m : List Char) (a e : Option (List Char)) : Prop :=
  ∃ r1 r2 ws tl,
    s = m ++ r1 ∧ Dotted m ∧
    ((a = none ∧ r2 = r1) ∨ (∃ an, a = some an ∧ Dotted an ∧ r1 = ':' :: (an ++ r2))) ∧
    r2 = ws ++ tl ∧ (∀ c ∈ ws, isPySpace c = true) ∧
    ((e = none ∧ tl = []) ∨
     (∃ p, e = some p ∧ p ≠ [] ∧ (∀ c ∈ p, c ≠ '\n') ∧
        (tl = '[' :: (p ++ [']']) ∨ tl = '[' :: (p ++ [']', '\n']))))

/-! # Theorems -/

/-! ## Shadowing (`iter_all_epinfo`, `get_group_all`, `get_single`) -/

/-- Filtering with a weaker predicate does not change the first match of
a stronger one. -/
theorem find?_filter_of_imp {α : Type} (p q : α → Bool)
    (h : ∀ x, p x = true → q x = true) :
    ∀ l : List α, (l.filter q).find? p = l.find? p := by
  intro l
  induction l with
  | nil => rfl
  | cons a t ih =>
    rw [List.filter_cons]
    by_cases hq : q a = true
    · rw [if_pos hq, List.find?_cons, List.find?_cons]
      cases hp : p a
      · simpa [hp] using ih
      · simp [hp]
    · have hp : p a = false := by
        cases hpa : p a
        · rfl
        · exact absurd (h a hpa) hq
      rw [if_neg hq, List.find?_cons, hp, ih]

/-- Every distribution kept by the spec-side shadowing was in the
input. -/
theorem specFirstDistroWins_subset :
    ∀ (l : List Distro) (d : Distro), d ∈ specFirstDistroWins l → d ∈ l := by
  intro l
  induction l using specFirstDistroWins.induct with
  | case1 => intro d h; simp [specFirstDistroWins] at h
  | case2 a rest ih =>
    intro d h
    rw [specFirstDistroWins] at h
    rcases List.mem_cons.mp h with h | h
    · exact h ▸ List.mem_cons_self a rest
    · exact List.mem_cons_of_mem a (List.mem_of_mem_filter (ih d h))

/-- A kept distribution is the first one in the input bearing its
name. -/
theorem specFirstDistroWins_find :
    ∀ (l : List Distro) (d : Distro), d ∈ specFirstDistroWins l →
      l.find? (fun x => decide (x.name = d.name)) = some d := by
  intro l
  induction l using specFirstDistroWins.induct with
  | case1 => intro d h; simp [specFirstDistroWins] at h
  | case2 a rest ih =>
    intro d h
    rw [specFirstDistroWins] at h
    rcases List.mem_cons.mp h with h | h
    · subst h
      rw [List.find?_cons]
      simp
    · have hne : d.name ≠ a.name := by
        have := List.mem_filter.mp (specFirstDistroWins_subset _ d h)
        simpa using this.2
      have hfirst := ih d h
      rw [List.find?_cons]
      have hpa : (decide (a.name = d.name)) = false :=
        decide_eq_false (fun h' => hne h'.symm)
      rw [hpa]
      rw [find?_filter_of_imp (fun x => decide (x.name = d.name))
            (fun x => decide (x.name ≠ a.name))
            (by intro x hx; simp at hx ⊢; exact hx ▸ hne) rest] at hfirst
      exact hfirst

/-- Conversely, the first distribution bearing a given name is kept by
the spec-side shadowing. -/
theorem find_mem_specFirstDistroWins :
    ∀ (l : List Distro) (c : Option String) (d0 : Distro),
      l.find? (fun x => decide (x.name = c)) = some d0 →
      d0 ∈ specFirstDistroWins l := by
  intro l
  induction l using specFirstDistroWins.induct with
  | case1 => intro c d0 h; simp at h
  | case2 a rest ih =>
    intro c d0 h
    rw [List.find?_cons] at h
    rw [specFirstDistroWins]
    cases hpa : (decide (a.name = c)) with
    | true =>
      rw [hpa] at h
      exact List.mem_cons.mpr (Or.inl (Option.some.inj h).symm)
    | false =>
      rw [hpa] at h
      have hac : ¬ (a.name = c) := of_decide_eq_false hpa
      have h' : (rest.filter (fun x => decide (x.name ≠ a.name))).find?
          (fun x => decide (x.name = c)) = some d0 := by
        rw [find?_filter_of_imp (fun x => decide (x.name = c))
              (fun x => decide (x.name ≠ a.name))
              (by intro x hx; simp at hx ⊢; exact fun he => hac (he ▸ hx)) rest]
        exact h
      exact List.mem_cons_of_mem a (ih c d0 h')

/-- Membership in `distroPairs`. -/
theorem mem_distroPairs (L : List Distro) (d : Distro) (e : EpInfo) :
    (d, e) ∈ distroPairs L ↔ d ∈ L ∧ e ∈ d.entrypoints := by
  unfold distroPairs
  rw [List.mem_flatMap]
  constructor
  · rintro ⟨d', hd', hmem⟩
    rcases List.mem_map.mp hmem with ⟨e', he', heq⟩
    cases heq
    exact ⟨hd', he'⟩
  · rintro ⟨hd, he⟩
    exact ⟨d, hd, List.mem_map.mpr ⟨e, he, rfl⟩⟩

/-- `shadowGo` computes exactly the contributions of the
first-occurrence distributions among those not yet seen. -/
theorem shadowGo_eq_spec :
    ∀ (ds : List Distro) (seen : List (Option String)),
      shadowGo seen ds =
        distroPairs (specFirstDistroWins
          (ds.filter (fun d => decide (d.name ∉ seen)))) := by
  intro ds
  induction ds with
  | nil => intro seen; simp [shadowGo, specFirstDistroWins, distroPairs]
  | cons d rest ih =>
    intro seen
    rw [shadowGo, List.filter_cons]
    by_cases h : d.name ∈ seen
    · rw [if_pos h]
      have : (decide (d.name ∉ seen)) = false := by simp [h]
      rw [this, if_neg (by simp)]
      exact ih seen
    · rw [if_neg h]
      have : (decide (d.name ∉ seen)) = true := by simp [h]
      rw [this, if_pos rfl, specFirstDistroWins]
      have hcomb : (rest.filter (fun x => decide (x.name ∉ seen))).filter
            (fun x => decide (x.name ≠ d.name)) =
          rest.filter (fun x => decide (x.name ∉ d.name :: seen)) := by
        rw [List.filter_filter]
        apply List.filter_congr
        intro x _
        by_cases h1 : x.name = d.name <;> by_cases h2 : x.name ∈ seen <;>
          simp [h1, h2]
      have hpairs : distroPairs (d :: specFirstDistroWins
            (rest.filter (fun x => decide (x.name ∉ d.name :: seen)))) =
          (d.entrypoints.map (fun e => (d, e))) ++
            distroPairs (specFirstDistroWins
              (rest.filter (fun x => decide (x.name ∉ d.name :: seen)))) := by
        unfold distroPairs
        rw [List.flatMap_cons]
      rw [hcomb, hpairs, ih (d.name :: seen)]

/-- `iter_all_epinfo` over the flattened distribution stream. -/
theorem iter_all_epinfo_eq_spec (results : List LocationEP) :
    iter_all_epinfo results =
      distroPairs (specFirstDistroWins
        (results.flatMap (fun l => l.distributions))) := by
  unfold iter_all_epinfo
  rw [shadowGo_eq_spec]
  congr 2
  apply List.filter_eq_self.mpr
  intro d _
  simp

/-- Selecting one group's entry points from the pair stream. -/
theorem distroPairs_filterMap_group (g : String) :
    ∀ L : List Distro,
      (distroPairs L).filterMap (fun de =>
          if de.2.group = g then some (buildEntryPoint de.1 de.2) else none) =
        L.flatMap (fun d =>
          (d.entrypoints.filter (fun e => decide (e.group = g))).map
            (buildEntryPoint d)) := by
  intro L
  induction L with
  | nil => rfl
  | cons d t ih =>
    unfold distroPairs at ih ⊢
    rw [List.flatMap_cons, List.filterMap_append, ih, List.flatMap_cons]
    congr 1
    rw [List.filterMap_map]
    induction d.entrypoints with
    | nil => rfl
    | cons e es ihe =>
      rw [List.filterMap_cons, List.filter_cons]
      by_cases hg : e.group = g
      · simp only [Function.comp_apply, if_pos hg, decide_eq_true hg]
        rw [ihe]
        simp
      · simp only [Function.comp_apply, if_neg hg, decide_eq_false hg]
        rw [ihe]
        simp

/-- C5: `get_group_all` never returns the shadowed entry-point list:
`__init__.py` passes the keyword argument `cache_file` to
`reader.iter_all_epinfo`, whose only parameter is `path`, so the call's
argument binding raises `TypeError` on every invocation, before any
shadowing or filtering runs. -/
theorem get_group_all_always_type_error (g : String)
    (results : List LocationEP) :
    query_call_kwargs.contains "cache_file" = true
  ∧ iter_all_epinfo_params.contains "cache_file" = false
  ∧ get_group_all g results = .error (QueryError.typeError "TypeError") :=
  ⟨rfl, rfl, rfl⟩

/-- C10: distributions whose name failed to parse (`None`) take part in
first-seen-wins shadowing like any other name: every pair the iteration
yields for a null-named distribution comes from the first null-named
distribution of the flattened stream, and conversely all entry points of
that first null-named distribution are yielded. -/
theorem null_named_distro_shadowing (results : List LocationEP) :
    (∀ d e, (d, e) ∈ iter_all_epinfo results → d.name = none →
      (results.flatMap (fun l => l.distributions)).find?
          (fun x => decide (x.name = none)) = some d
        ∧ e ∈ d.entrypoints)
  ∧ (∀ d0, (results.flatMap (fun l => l.distributions)).find?
        (fun x => decide (x.name = none)) = some d0 →
      ∀ e0 ∈ d0.entrypoints, (d0, e0) ∈ iter_all_epinfo results) := by
  constructor
  · intro d e hmem hnone
    rw [iter_all_epinfo_eq_spec] at hmem
    rcases (mem_distroPairs _ d e).mp hmem with ⟨hd, he⟩
    refine ⟨?_, he⟩
    have := specFirstDistroWins_find _ d hd
    rwa [hnone] at this
  · intro d0 hfind e0 he0
    rw [iter_all_epinfo_eq_spec]
    exact (mem_distroPairs _ d0 e0).mpr
      ⟨find_mem_specFirstDistroWins _ none d0 hfind, he0⟩

/-- Witness for the null-name shadowing theorem on a concrete search
path: two null-named distributions at different locations; the first is
yielded in full, and any null-named pair traces back to it. -/
theorem null_named_distro_shadowing_witness :
    ((([⟨3, true, [⟨none, none, [⟨"g", "a", "m", none, none⟩]⟩]⟩,
        ⟨4, true, [⟨none, some "v", [⟨"g", "b", "m2", none, none⟩]⟩]⟩] :
          List LocationEP).flatMap (fun l => l.distributions)).find?
        (fun x => decide (x.name = none)) =
          some ⟨none, none, [⟨"g", "a", "m", none, none⟩]⟩
      ∧ (⟨"g", "a", "m", none, none⟩ : EpInfo) ∈
          (⟨none, none, [⟨"g", "a", "m", none, none⟩]⟩ : Distro).entrypoints)
  ∧ ((⟨none, none, [⟨"g", "a", "m", none, none⟩]⟩ : Distro),
      (⟨"g", "a", "m", none, none⟩ : EpInfo)) ∈
        iter_all_epinfo
          [⟨3, true, [⟨none, none, [⟨"g", "a", "m", none, none⟩]⟩]⟩,
           ⟨4, true, [⟨none, some "v", [⟨"g", "b", "m2", none, none⟩]⟩]⟩] := by
  constructor
  · exact (null_named_distro_shadowing
      [⟨3, true, [⟨none, none, [⟨"g", "a", "m", none, none⟩]⟩]⟩,
       ⟨4, true, [⟨none, some "v", [⟨"g", "b", "m2", none, none⟩]⟩]⟩]).1
      ⟨none, none, [⟨"g", "a", "m", none, none⟩]⟩ ⟨"g", "a", "m", none, none⟩
      (by decide) rfl
  · exact (null_named_distro_shadowing
      [⟨3, true, [⟨none, none, [⟨"g", "a", "m", none, none⟩]⟩]⟩,
       ⟨4, true, [⟨none, some "v", [⟨"g", "b", "m2", none, none⟩]⟩]⟩]).2
      ⟨none, none, [⟨"g", "a", "m", none, none⟩]⟩ (by decide)
      ⟨"g", "a", "m", none, none⟩ (by decide)

/-- C2: `get_single` never returns a first match and never raises
`NoSuchEntryPoint`: `__init__.py` passes the keyword argument
`cache_file` to `reader.iter_all_epinfo`, whose only parameter is
`path`, so the call's argument binding raises `TypeError` on every
invocation, before the matching loop runs. -/
theorem get_single_always_type_error (g n : String)
    (results : List LocationEP) :
    query_call_kwargs.contains "cache_file" = true
  ∧ iter_all_epinfo_params.contains "cache_file" = false
  ∧ get_single g n results = .error (QueryError.typeError "TypeError") :=
  ⟨rfl, rfl, rfl⟩

/-! ## Atomic cache persistence (`atomic_json_dump`) -/

/-- C4: `atomic_json_dump` writes the serialization into a temporary
file created in the target's directory and renames it over the target
only once complete: at every intermediate state the target holds either
its previous contents or the full new serialization (never a partial
write); when writing fails partway, the target is untouched, the
temporary file has been deleted, and the error propagates; when writing
succeeds, the target holds the new contents and no temporary file
remains. -/
theorem atomic_json_dump_safety (st0 : DumpFs) (path ser halfWritten : String) :
    ((atomic_json_dump st0 path ser true halfWritten).2 = true
      ∧ (atomic_json_dump st0 path ser true halfWritten).1.getLast? =
          some ⟨st0.target, none⟩)
  ∧ (∀ mid ∈ (atomic_json_dump st0 path ser true halfWritten).1,
      mid.target = st0.target)
  ∧ (∀ b : Bool, ∀ mid ∈ (atomic_json_dump st0 path ser b halfWritten).1,
      mid.target = st0.target ∨ mid.target = some ser)
  ∧ (∀ b : Bool, ∀ mid ∈ (atomic_json_dump st0 path ser b halfWritten).1,
      ∀ dc, mid.temp = some dc → dc.1 = dirnamePy path)
  ∧ ((atomic_json_dump st0 path ser false halfWritten).2 = false
      ∧ (atomic_json_dump st0 path ser false halfWritten).1.getLast? =
          some ⟨some ser, none⟩) := by
  refine ⟨⟨rfl, rfl⟩, ?_, ?_, ?_, rfl, rfl⟩
  · intro mid hmid
    simp [atomic_json_dump] at hmid
    rcases hmid with rfl | rfl | rfl <;> rfl
  · intro b mid hmid
    cases b <;> simp [atomic_json_dump] at hmid <;>
      (rcases hmid with rfl | rfl | rfl) <;> simp
  · intro b mid hmid dc hdc
    cases b <;> simp [atomic_json_dump] at hmid <;>
      (rcases hmid with rfl | rfl | rfl) <;>
      (try cases hdc) <;> rfl

/-- Witness for the atomic-dump theorem at a concrete starting state. -/
theorem atomic_json_dump_safety_witness :
    (atomic_json_dump ⟨some "old", none⟩ "/d/c.json" "new" true "ne").2 = true
  ∧ (atomic_json_dump ⟨some "old", none⟩ "/d/c.json" "new" true "ne").1.getLast? =
      some ⟨some "old", none⟩
  ∧ ∀ mid ∈ (atomic_json_dump ⟨some "old", none⟩ "/d/c.json" "new" true "ne").1,
      mid.target = some "old" := by
  have h := atomic_json_dump_safety ⟨some "old", none⟩ "/d/c.json" "new" "ne"
  exact ⟨h.1.1, h.1.2, h.2.1⟩

/-! ## Scanner-state bookkeeping lemmas -/

theorem addNonCacheable_cacheFileEnabled (st : ScannerState) (p : String) :
    (addNonCacheable st p).cacheFileEnabled = st.cacheFileEnabled := by
  unfold addNonCacheable; split <;> rfl

theorem addNonCacheable_workingCache (st : ScannerState) (p : String) :
    (addNonCacheable st p).workingCache = st.workingCache := by
  unfold addNonCacheable; split <;> rfl

theorem addNonCacheable_mem (st : ScannerState) (p q : String)
    (h : q ∈ st.nonCacheable) : q ∈ (addNonCacheable st p).nonCacheable := by
  unfold addNonCacheable; split
  · exact h
  · exact List.mem_cons_of_mem p h

theorem addNonCacheable_self (st : ScannerState) (p : String) :
    p ∈ (addNonCacheable st p).nonCacheable := by
  unfold addNonCacheable; split
  · assumption
  · exact List.mem_cons_self p st.nonCacheable

/-- `entrypoints_for_path` only ever grows `non_cacheable_paths`: it
never touches the working cache or the cache-file configuration. -/
theorem entrypoints_from_dir_fst (st : ScannerState) (p : String) (mt : Int)
    (ids : List (String × ConfigFile)) (marker : Bool) :
    (entrypoints_from_dir st p mt ids marker).1 =
      ⟨mt, true, sortDistros (ids.map (fun sc =>
        ⟨(dirNameVersion sc.1).1, (dirNameVersion sc.1).2,
          entrypoints_from_configparser sc.2⟩))⟩ := rfl

theorem entrypoints_from_dir_snd (st : ScannerState) (p : String) (mt : Int)
    (ids : List (String × ConfigFile)) (marker : Bool) :
    (entrypoints_from_dir st p mt ids marker).2 =
      if marker then addNonCacheable st p else st := rfl

theorem entrypoints_from_zip_fst (st : ScannerState) (p : String) (mt : Int)
    (zs : ZipSt) :
    (entrypoints_from_zip st p mt zs).1 = ⟨mt, true, sortDistros zs.zipDistros⟩ := rfl

theorem entrypoints_from_zip_snd (st : ScannerState) (p : String) (mt : Int)
    (zs : ZipSt) :
    (entrypoints_from_zip st p mt zs).2 =
      if NO_CACHE_MARKER_FILE ∈ zs.members then addNonCacheable st p else st := rfl

theorem entrypoints_for_path_state (st : ScannerState) (fs : FS) (p : String)
    (r : Option LocationEP) (st' : ScannerState)
    (h : entrypoints_for_path st fs p = .ok (r, st')) :
    st'.cacheFileEnabled = st.cacheFileEnabled
  ∧ st'.workingCache = st.workingCache
  ∧ ∀ q ∈ st.nonCacheable, q ∈ st'.nonCacheable := by
  unfold entrypoints_for_path at h
  by_cases hegg : pyEndsWith p ".egg" = true
  · rw [if_pos hegg] at h
    cases hpc : cacheGet st.workingCache p with
    | some c =>
      rw [hpc] at h
      try dsimp only at h
      cases h
      exact ⟨rfl, rfl, fun q hq => hq⟩
    | none =>
      rw [hpc] at h
      try dsimp only at h
      cases hef : entrypoints_from_egg fs p with
      | ok r0 =>
        rw [hef] at h
        try dsimp only at h
        cases h
        exact ⟨rfl, rfl, fun q hq => hq⟩
      | error e =>
        rw [hef] at h
        try dsimp only at h
        cases h
  · rw [if_neg hegg] at h
    cases hfs : fs p with
    | missing =>
      rw [hfs] at h
      try dsimp only at h
      cases h
      exact ⟨rfl, rfl, fun q hq => hq⟩
    | dirSt mt ids marker eggCfg =>
      rw [hfs] at h
      try dsimp only at h
      by_cases hv : validCache (cacheGet st.workingCache p) mt true = true
      · rw [if_pos hv] at h
        cases h
        exact ⟨rfl, rfl, fun q hq => hq⟩
      · rw [if_neg hv] at h
        cases h
        rw [entrypoints_from_dir_snd]
        cases marker
        · rw [if_neg (by simp)]
          exact ⟨rfl, rfl, fun q hq => hq⟩
        · rw [if_pos rfl]
          exact ⟨addNonCacheable_cacheFileEnabled st p,
            addNonCacheable_workingCache st p,
            fun q hq => addNonCacheable_mem st p q hq⟩
    | fileSt mt z =>
      rw [hfs] at h
      try dsimp only at h
      by_cases hv : validCache (cacheGet st.workingCache p) mt false = true
      · rw [if_pos hv] at h
        cases h
        exact ⟨rfl, rfl, fun q hq => hq⟩
      · rw [if_neg hv] at h
        cases z with
        | some zs =>
          cases h
          rw [entrypoints_from_zip_snd]
          by_cases hm : NO_CACHE_MARKER_FILE ∈ zs.members
          · rw [if_pos hm]
            exact ⟨addNonCacheable_cacheFileEnabled st p,
              addNonCacheable_workingCache st p,
              fun q hq => addNonCacheable_mem st p q hq⟩
          · rw [if_neg hm]
            exact ⟨rfl, rfl, fun q hq => hq⟩
        | none =>
          cases h
          exact ⟨rfl, rfl, fun q hq => hq⟩

theorem lookupPath_cacheSet_ne (wc : List (String × Option LocationEP))
    (p q : String) (v : Option LocationEP) (h : q ≠ p) :
    lookupPath (cacheSet wc q v) p = lookupPath wc p := by
  induction wc with
  | nil => simp [cacheSet, lookupPath, h]
  | cons a rest ih =>
    unfold cacheSet
    split
    · next heq => unfold lookupPath; rw [if_neg h, if_neg (heq ▸ h)]
    · unfold lookupPath; split
      · rfl
      · exact ih

theorem lookupPath_cacheSet_self (wc : List (String × Option LocationEP))
    (p : String) (v : Option LocationEP) :
    lookupPath (cacheSet wc p v) p = some v := by
  induction wc with
  | nil => simp [cacheSet, lookupPath]
  | cons a rest ih =>
    unfold cacheSet
    split
    · unfold lookupPath; rw [if_pos rfl]
    · next hne => unfold lookupPath; rw [if_neg hne]; exact ih

theorem lookupPath_filter_none (wc : List (String × Option LocationEP))
    (f : String × Option LocationEP → Bool) (p : String)
    (h : lookupPath wc p = none) : lookupPath (wc.filter f) p = none := by
  induction wc with
  | nil => simp [lookupPath]
  | cons a rest ih =>
    unfold lookupPath at h
    split at h
    · cases h
    · next hne =>
      rw [List.filter_cons]
      split
      · unfold lookupPath; rw [if_neg hne]; exact ih h
      · exact ih h

theorem lookupPath_filter_notMem (wc : List (String × Option LocationEP))
    (nc : List String) (p : String) (h : p ∈ nc) :
    lookupPath (wc.filter (fun e => decide (e.1 ∉ nc))) p = none := by
  induction wc with
  | nil => simp [lookupPath]
  | cons a rest ih =>
    rw [List.filter_cons]
    split
    · next hkeep =>
      unfold lookupPath
      split
      · next heq =>
        exfalso
        have : a.1 ∉ nc := by simpa using hkeep
        exact this (heq ▸ h)
      · exact ih
    · exact ih

theorem finishScan_final (st : ScannerState) (m e : Bool)
    (outs : List (Option LocationEP)) : (finishScan st m e outs).final = st := by
  unfold finishScan; split <;> rfl

theorem finishScan_errored (st : ScannerState) (m e : Bool)
    (outs : List (Option LocationEP)) : (finishScan st m e outs).errored = e := by
  unfold finishScan; split <;> rfl

theorem finishScan_persisted (st : ScannerState) (m e : Bool)
    (outs : List (Option LocationEP)) (data : List (String × Option LocationEP))
    (h : (finishScan st m e outs).persisted = some data) :
    data = write_user_cache st := by
  unfold finishScan at h
  split at h
  · exact (Option.some.inj h).symm
  · cases h

/-- Unfolding equations for `scanRunAux` (stated explicitly; they hold
by `rfl`). -/
theorem scanRunAux_nil (fs : FS) (st : ScannerState) (m : Bool) (pulled : Nat) :
    scanRunAux fs st m [] pulled = finishScan st m false [] := rfl

theorem scanRunAux_zero (fs : FS) (st : ScannerState) (m : Bool) (q : String)
    (rest : List String) :
    scanRunAux fs st m (q :: rest) 0 = finishScan st m false [] := rfl

set_option maxHeartbeats 1600000 in
theorem scanRunAux_succ (fs : FS) (st : ScannerState) (m : Bool) (q : String)
    (rest : List String) (k : Nat) :
    scanRunAux fs st m (q :: rest) (k + 1) =
      match (scanStep fs st q).out with
      | none =>
        finishScan (scanStep fs st q).st (m || (scanStep fs st q).dirty) true []
      | some o =>
        { scanRunAux fs (scanStep fs st q).st
            (m || (scanStep fs st q).dirty) rest k with
          outputs := o :: (scanRunAux fs (scanStep fs st q).st
            (m || (scanStep fs st q).dirty) rest k).outputs } := rfl

set_option maxHeartbeats 1600000 in
/-- Whatever a `scan` session persists is `write_user_cache` of its
final state. -/
theorem scanRunAux_persisted_eq (fs : FS) :
    ∀ (locs : List String) (pulled : Nat) (st : ScannerState) (m : Bool)
      (data : List (String × Option LocationEP)),
      (scanRunAux fs st m locs pulled).persisted = some data →
      data = write_user_cache (scanRunAux fs st m locs pulled).final := by
  intro locs
  induction locs with
  | nil =>
    intro pulled st m data h
    rw [scanRunAux_nil] at h ⊢
    rw [finishScan_final]
    exact finishScan_persisted st m false [] data h
  | cons q rest ih =>
    intro pulled st m data h
    match pulled with
    | 0 =>
      rw [scanRunAux_zero] at h ⊢
      rw [finishScan_final]
      exact finishScan_persisted st m false [] data h
    | Nat.succ k =>
      rw [scanRunAux_succ] at h ⊢
      generalize hsr : scanStep fs st q = sr at h ⊢
      cases hout : sr.out with
      | none =>
        rw [hout] at h
        dsimp only at h ⊢
        rw [finishScan_final]
        exact finishScan_persisted _ _ true [] data h
      | some o =>
        rw [hout] at h
        dsimp only at h ⊢
        exact ih k _ _ data h

/-- A `scan` iteration leaves the working cache unchanged or replaces the
processed path's entry, keeps every non-cacheable path, and never changes
the cache-file configuration. -/
theorem scanStep_state (fs : FS) (st : ScannerState) (p : String) :
    ((scanStep fs st p).st.workingCache = st.workingCache
      ∨ ∃ r, (scanStep fs st p).st.workingCache = cacheSet st.workingCache p r)
  ∧ (∀ q ∈ st.nonCacheable, q ∈ (scanStep fs st p).st.nonCacheable)
  ∧ (scanStep fs st p).st.cacheFileEnabled = st.cacheFileEnabled := by
  unfold scanStep
  cases h : entrypoints_for_path st fs p with
  | error e =>
    dsimp only
    exact ⟨Or.inl rfl, fun q hq => hq, rfl⟩
  | ok v =>
    obtain ⟨r, st'⟩ := v
    have hst := entrypoints_for_path_state st fs p r st' h
    dsimp only
    split
    · exact ⟨Or.inl hst.2.1, hst.2.2, hst.1⟩
    · exact ⟨Or.inr ⟨r, by rw [hst.2.1]⟩, hst.2.2, hst.1⟩

theorem scanStep_preserves_absent (fs : FS) (st : ScannerState) (p q : String)
    (hne : q ≠ p) (h : lookupPath st.workingCache p = none) :
    lookupPath (scanStep fs st q).st.workingCache p = none := by
  rcases (scanStep_state fs st q).1 with hw | ⟨r, hw⟩
  · rw [hw]; exact h
  · rw [hw, lookupPath_cacheSet_ne _ _ _ _ hne]; exact h

/-! ## C9: egg archives without entry-point metadata -/

set_option maxHeartbeats 1600000 in
/-- C9: a `.egg` path that is a zip archive lacking the
`EGG-INFO/entry_points.txt` member scans to the `None` sentinel — a value
distinct from every `LocationScanResult`, in particular from a
zero-distribution result — and a `scan` session never stores such a
location in the cache: the step leaves the scanner state untouched and,
if the path had no cache entry beforehand, the cache (and anything
persisted from it) still has none after any session over any
locations. -/
theorem egg_zip_without_metadata (fs : FS) (p : String) (mt : Int)
    (members : List String) (zd : List Distro)
    (hfs : fs p = .fileSt mt (some ⟨members, zd, none⟩))
    (hegg : pyEndsWith p ".egg" = true) :
    entrypoints_from_egg fs p = .ok none
  ∧ (∀ ds : List Distro, ∀ isdir : Bool,
      entrypoints_from_egg fs p ≠ .ok (some ⟨mt, isdir, ds⟩))
  ∧ (∀ st : ScannerState, cacheGet st.workingCache p = none →
      scanStep fs st p = ⟨some none, st, false⟩)
  ∧ (∀ st : ScannerState, ∀ locs : List String, ∀ pulled : Nat,
      lookupPath st.workingCache p = none →
      lookupPath (scanRun fs st locs pulled).final.workingCache p = none
      ∧ ∀ data, (scanRun fs st locs pulled).persisted = some data →
          lookupPath data p = none) := by
  have hscan : entrypoints_from_egg fs p = .ok none := by
    unfold entrypoints_from_egg
    rw [hfs]
  have hstep : ∀ st : ScannerState, cacheGet st.workingCache p = none →
      scanStep fs st p = ⟨some none, st, false⟩ := by
    intro st hget
    unfold scanStep entrypoints_for_path
    rw [if_pos hegg, hget]
    simp only [hscan, hget]
    rfl
  have haux : ∀ (locs : List String) (pulled : Nat) (st : ScannerState) (m : Bool),
      lookupPath st.workingCache p = none →
      lookupPath (scanRunAux fs st m locs pulled).final.workingCache p = none := by
    intro locs
    induction locs with
    | nil =>
      intro pulled st m h
      rw [scanRunAux_nil, finishScan_final]
      exact h
    | cons q rest ih =>
      intro pulled st m h
      match pulled with
      | 0 =>
        rw [scanRunAux_zero, finishScan_final]
        exact h
      | Nat.succ k =>
        rw [scanRunAux_succ]
        have hpres : lookupPath (scanStep fs st q).st.workingCache p = none := by
          by_cases hq : q = p
          · subst hq
            have hg : cacheGet st.workingCache q = none := by
              unfold cacheGet
              rw [h]
              rfl
            rw [hstep st hg]
            exact h
          · exact scanStep_preserves_absent fs st p q hq h
        generalize hsr : scanStep fs st q = sr at hpres ⊢
        cases hout : sr.out with
        | none =>
          dsimp only
          rw [finishScan_final]
          exact hpres
        | some o =>
          dsimp only
          exact ih k _ _ hpres
  refine ⟨hscan, ?_, hstep, ?_⟩
  · intro ds isdir hcontra
    rw [hscan] at hcontra
    cases hcontra
  · intro st locs pulled h
    have hfin := haux locs pulled st false h
    refine ⟨hfin, ?_⟩
    intro data hdata
    unfold scanRun at hdata hfin
    have hdw := scanRunAux_persisted_eq fs locs pulled st false data hdata
    rw [hdw]
    unfold write_user_cache
    exact lookupPath_filter_none _ _ p hfin

/-- Witness for the egg-archive theorem: a concrete `.egg` zip with one
member and no `EGG-INFO/entry_points.txt`. -/
theorem egg_zip_without_metadata_witness :
    entrypoints_from_egg
        (fun q => if q = "a-1.egg" then .fileSt 9 (some ⟨["m"], [], none⟩)
                  else .missing) "a-1.egg" = .ok none
  ∧ scanStep
        (fun q => if q = "a-1.egg" then .fileSt 9 (some ⟨["m"], [], none⟩)
                  else .missing) ⟨true, [], []⟩ "a-1.egg" =
      ⟨some none, ⟨true, [], []⟩, false⟩ := by
  have h := egg_zip_without_metadata
    (fun q => if q = "a-1.egg" then .fileSt 9 (some ⟨["m"], [], none⟩)
              else .missing) "a-1.egg" 9 ["m"] [] (by decide) (by decide)
  exact ⟨h.1, h.2.2.1 ⟨true, [], []⟩ rfl⟩

/-! ## Fresh-scan step lemmas -/

/-- Stepping `scan` over a directory whose cached entry is invalid (or
absent): the fresh directory scan is returned, stored over the cached
entry, and the marker handling decides both the non-cacheable set and the
dirty flag. -/
theorem scanStep_dir_fresh (fs : FS) (st : ScannerState) (path : String)
    (mt : Int) (ids : List (String × ConfigFile)) (marker : Bool)
    (eggCfg : Option ConfigFile)
    (hegg : pyEndsWith path ".egg" = false)
    (hfs : fs path = .dirSt mt ids marker eggCfg)
    (hv : validCache (cacheGet st.workingCache path) mt true = false) :
    entrypoints_for_path st fs path =
      .ok (some (entrypoints_from_dir st path mt ids marker).1,
           (entrypoints_from_dir st path mt ids marker).2)
  ∧ (scanStep fs st path).out =
      some (some (entrypoints_from_dir st path mt ids marker).1)
  ∧ (scanStep fs st path).st.workingCache =
      cacheSet st.workingCache path
        (some (entrypoints_from_dir st path mt ids marker).1)
  ∧ (scanStep fs st path).st.nonCacheable =
      (if marker then addNonCacheable st path else st).nonCacheable
  ∧ (scanStep fs st path).dirty =
      decide (path ∉ (if marker then addNonCacheable st path else st).nonCacheable) := by
  have hep : entrypoints_for_path st fs path =
      .ok (some (entrypoints_from_dir st path mt ids marker).1,
           (entrypoints_from_dir st path mt ids marker).2) := by
    unfold entrypoints_for_path
    rw [hegg, hfs]
    rw [if_neg (by simp)]
    dsimp only
    rw [if_neg (by rw [hv]; simp)]
  have hne : ¬ (some (entrypoints_from_dir st path mt ids marker).1 =
      cacheGet ((entrypoints_from_dir st path mt ids marker).2).workingCache path) := by
    rw [entrypoints_from_dir_snd]
    intro he
    have hwc : (if marker then addNonCacheable st path else st).workingCache =
        st.workingCache := by
      cases marker
      · rw [if_neg (by simp)]
      · rw [if_pos rfl, addNonCacheable_workingCache]
    rw [hwc] at he
    rw [entrypoints_from_dir_fst] at he
    unfold validCache at hv
    rw [← he] at hv
    simp at hv
  have hstep : scanStep fs st path =
      ⟨some (some (entrypoints_from_dir st path mt ids marker).1),
       { (entrypoints_from_dir st path mt ids marker).2 with
         workingCache := cacheSet
           ((entrypoints_from_dir st path mt ids marker).2).workingCache path
           (some (entrypoints_from_dir st path mt ids marker).1) },
       decide (path ∉ ((entrypoints_from_dir st path mt ids marker).2).nonCacheable)⟩ := by
    unfold scanStep
    rw [hep]
    dsimp only
    rw [if_neg hne]
  refine ⟨hep, ?_, ?_, ?_, ?_⟩ <;> rw [hstep] <;> dsimp only
  · rw [entrypoints_from_dir_snd]
    cases marker
    · rw [if_neg (by simp)]
    · rw [if_pos rfl, addNonCacheable_workingCache]
  · rw [entrypoints_from_dir_snd]
  · rw [entrypoints_from_dir_snd]

/-- The zip analogue of `scanStep_dir_fresh`.  Because
`entrypoints_from_zip` stores `isdir: True` for a path statted as a file,
a stale cached entry can happen to coincide with the fresh result, in
which case the step stores nothing; either way, afterwards the cache
holds the fresh scan result. -/
theorem scanStep_zip_fresh (fs : FS) (st : ScannerState) (path : String)
    (mt : Int) (zs : ZipSt)
    (hegg : pyEndsWith path ".egg" = false)
    (hfs : fs path = .fileSt mt (some zs))
    (hv : validCache (cacheGet st.workingCache path) mt false = false) :
    entrypoints_for_path st fs path =
      .ok (some (entrypoints_from_zip st path mt zs).1,
           (entrypoints_from_zip st path mt zs).2)
  ∧ (scanStep fs st path).out =
      some (some (entrypoints_from_zip st path mt zs).1)
  ∧ cacheGet (scanStep fs st path).st.workingCache path =
      some (entrypoints_from_zip st path mt zs).1 := by
  have hep : entrypoints_for_path st fs path =
      .ok (some (entrypoints_from_zip st path mt zs).1,
           (entrypoints_from_zip st path mt zs).2) := by
    unfold entrypoints_for_path
    rw [hegg, hfs]
    rw [if_neg (by simp)]
    dsimp only
    rw [if_neg (by rw [hv]; simp)]
  have hwc : ((entrypoints_from_zip st path mt zs).2).workingCache =
      st.workingCache := by
    rw [entrypoints_from_zip_snd]
    by_cases hm : NO_CACHE_MARKER_FILE ∈ zs.members
    · rw [if_pos hm, addNonCacheable_workingCache]
    · rw [if_neg hm]
  refine ⟨hep, ?_⟩
  unfold scanStep
  rw [hep]
  dsimp only
  by_cases heqc : some (entrypoints_from_zip st path mt zs).1 =
      cacheGet ((entrypoints_from_zip st path mt zs).2).workingCache path
  · rw [if_pos heqc]
    exact ⟨rfl, heqc.symm⟩
  · rw [if_neg heqc]
    refine ⟨rfl, ?_⟩
    dsimp only
    unfold cacheGet
    rw [lookupPath_cacheSet_self]
    rfl

/-! ## C8: the do-not-cache marker -/

/-- Once a path is non-cacheable, it stays so for the rest of the
session. -/
theorem scanRunAux_nonCacheable_mono (fs : FS) :
    ∀ (locs : List String) (pulled : Nat) (st : ScannerState) (m : Bool)
      (q : String), q ∈ st.nonCacheable →
      q ∈ (scanRunAux fs st m locs pulled).final.nonCacheable := by
  intro locs
  induction locs with
  | nil =>
    intro pulled st m q h
    rw [scanRunAux_nil, finishScan_final]
    exact h
  | cons p rest ih =>
    intro pulled st m q h
    match pulled with
    | 0 =>
      rw [scanRunAux_zero, finishScan_final]
      exact h
    | Nat.succ k =>
      rw [scanRunAux_succ]
      have hkeep : q ∈ (scanStep fs st p).st.nonCacheable :=
        (scanStep_state fs st p).2.1 q h
      generalize hsr : scanStep fs st p = sr at hkeep ⊢
      cases sr.out with
      | none =>
        dsimp only
        rw [finishScan_final]
        exact hkeep
      | some o =>
        dsimp only
        exact ih k _ _ q hkeep

/-- C8: when a location's root contains the `.entrypoints_no_cache`
marker — as a directory entry of a scanned directory or as a member of a
scanned zip archive — and its cache entry is not valid, the fresh scan
result is still computed and yielded and the working cache is updated
with it, but the step does not mark the session dirty, the path is
recorded non-cacheable — and from then on the path's entry is excluded
from whatever `write_user_cache` persists, for the rest of any
session. -/
theorem no_cache_marker_location (fs : FS) :
    (∀ (st : ScannerState) (path : String) (mt : Int)
      (ids : List (String × ConfigFile)) (eggCfg : Option ConfigFile),
      pyEndsWith path ".egg" = false →
      fs path = .dirSt mt ids true eggCfg →
      validCache (cacheGet st.workingCache path) mt true = false →
      (scanStep fs st path).out =
        some (some (entrypoints_from_dir st path mt ids true).1)
      ∧ (scanStep fs st path).st.workingCache =
          cacheSet st.workingCache path
            (some (entrypoints_from_dir st path mt ids true).1)
      ∧ (scanStep fs st path).dirty = false
      ∧ path ∈ (scanStep fs st path).st.nonCacheable)
  ∧ (∀ (st : ScannerState) (path : String) (mt : Int) (zs : ZipSt),
      pyEndsWith path ".egg" = false →
      fs path = .fileSt mt (some zs) →
      NO_CACHE_MARKER_FILE ∈ zs.members →
      validCache (cacheGet st.workingCache path) mt false = false →
      (scanStep fs st path).out =
        some (some (entrypoints_from_zip st path mt zs).1)
      ∧ cacheGet (scanStep fs st path).st.workingCache path =
          some (entrypoints_from_zip st path mt zs).1
      ∧ (scanStep fs st path).dirty = false
      ∧ path ∈ (scanStep fs st path).st.nonCacheable)
  ∧ (∀ (st : ScannerState) (locs : List String) (pulled : Nat) (path : String),
      path ∈ st.nonCacheable →
      path ∈ (scanRun fs st locs pulled).final.nonCacheable
      ∧ ∀ data, (scanRun fs st locs pulled).persisted = some data →
          lookupPath data path = none) := by
  refine ⟨?_, ?_, ?_⟩
  · intro st path mt ids eggCfg hegg hfs hv
    obtain ⟨hep, hout, hwc, hnc, hdirty⟩ :=
      scanStep_dir_fresh fs st path mt ids true eggCfg hegg hfs hv
    rw [if_pos rfl] at hnc hdirty
    refine ⟨hout, hwc, ?_, ?_⟩
    · rw [hdirty]
      exact decide_eq_false (not_not_intro (addNonCacheable_self st path))
    · rw [hnc]
      exact addNonCacheable_self st path
  · intro st path mt zs hegg hfs hm hv
    obtain ⟨hep, hout, hcg⟩ := scanStep_zip_fresh fs st path mt zs hegg hfs hv
    have hnc2 : path ∈ ((entrypoints_from_zip st path mt zs).2).nonCacheable := by
      rw [entrypoints_from_zip_snd, if_pos hm]
      exact addNonCacheable_self st path
    refine ⟨hout, hcg, ?_, ?_⟩
    · unfold scanStep
      rw [hep]
      dsimp only
      by_cases heq : some (entrypoints_from_zip st path mt zs).1 =
          cacheGet ((entrypoints_from_zip st path mt zs).2).workingCache path
      · rw [if_pos heq]
      · rw [if_neg heq]
        exact decide_eq_false (not_not_intro hnc2)
    · unfold scanStep
      rw [hep]
      dsimp only
      by_cases heq : some (entrypoints_from_zip st path mt zs).1 =
          cacheGet ((entrypoints_from_zip st path mt zs).2).workingCache path
      · rw [if_pos heq]
        exact hnc2
      · rw [if_neg heq]
        exact hnc2
  · intro st locs pulled path h
    have hmono := scanRunAux_nonCacheable_mono fs locs pulled st false path h
    refine ⟨hmono, ?_⟩
    intro data hdata
    unfold scanRun at hdata hmono
    have hdw := scanRunAux_persisted_eq fs locs pulled st false data hdata
    rw [hdw]
    unfold write_user_cache
    exact lookupPath_filter_notMem _ _ path hmono

/-- Witness for the marker theorem: a marker directory and a
marker-bearing zip archive, each scanned from an empty cache; both steps
yield the fresh result without dirtying and record the path
non-cacheable, and a dirty session (forced by a second, markerless
location) persists data without the marker path. -/
theorem no_cache_marker_location_witness :
    ((scanStep (fun q => if q = "d" then .dirSt 2 [] true none else .missing)
        ⟨true, [], []⟩ "d").dirty = false
      ∧ "d" ∈ (scanStep (fun q => if q = "d" then .dirSt 2 [] true none
          else .missing) ⟨true, [], []⟩ "d").st.nonCacheable)
  ∧ ((scanStep (fun q => if q = "z"
          then .fileSt 3 (some ⟨[NO_CACHE_MARKER_FILE], [], none⟩)
          else .missing) ⟨true, [], []⟩ "z").dirty = false
      ∧ "z" ∈ (scanStep (fun q => if q = "z"
          then .fileSt 3 (some ⟨[NO_CACHE_MARKER_FILE], [], none⟩)
          else .missing) ⟨true, [], []⟩ "z").st.nonCacheable)
  ∧ ∀ data,
      (scanRun (fun q => if q = "d" then .dirSt 2 [] true none else .missing)
        ⟨true, [("x", some ⟨1, true, []⟩)], ["d"]⟩ ["d"] 1).persisted = some data →
      lookupPath data "d" = none := by
  refine ⟨?_, ?_, ?_⟩
  · have h := (no_cache_marker_location
      (fun q => if q = "d" then .dirSt 2 [] true none else .missing)).1
      ⟨true, [], []⟩ "d" 2 [] none (by decide) (by decide) (by decide)
    exact ⟨h.2.2.1, h.2.2.2⟩
  · have h := (no_cache_marker_location
      (fun q => if q = "z"
        then .fileSt 3 (some ⟨[NO_CACHE_MARKER_FILE], [], none⟩)
        else .missing)).2.1
      ⟨true, [], []⟩ "z" 3 ⟨[NO_CACHE_MARKER_FILE], [], none⟩
      (by decide) (by decide) (by decide) (by decide)
    exact ⟨h.2.2.1, h.2.2.2⟩
  · intro data hdata
    exact ((no_cache_marker_location
      (fun q => if q = "d" then .dirSt 2 [] true none else .missing)).2.2
      ⟨true, [("x", some ⟨1, true, []⟩)], ["d"]⟩ ["d"] 1 "d" (by decide)).2
      data hdata

/-! ## C1: cache validity in `entrypoints_for_path` -/

/-- C1 (amended): `entrypoints_for_path` (a) returns a cached entry
unchanged — irrespective of anything else on the filesystem, so without
invoking the location scanner — whenever the stored mtime equals the
current stat's mtime and the stored `isdir` flag matches the current
file-type test; (b) for `.egg` paths returns any cached entry unchanged
without re-scanning, even if the mtime has changed; (c,d) otherwise
performs a fresh directory or zip scan whose result is returned and,
after the `scan` step, is what the cache holds for the path; and (e) for
an existing path that is neither a directory nor a zip archive performs
no scan at all, returning Python's implicit `None`, which the `scan`
step stores over the stale cached entry as a JSON `null`. -/
theorem entrypoints_for_path_cache_policy (st : ScannerState) (fs : FS)
    (path : String) :
    (∀ c mt isdir, pyEndsWith path ".egg" = false →
      statOf (fs path) = some (mt, isdir) →
      cacheGet st.workingCache path = some c →
      c.mtime = mt → c.isdir = isdir →
      entrypoints_for_path st fs path = .ok (some c, st))
  ∧ (∀ c, pyEndsWith path ".egg" = true →
      cacheGet st.workingCache path = some c →
      entrypoints_for_path st fs path = .ok (some c, st))
  ∧ (∀ mt ids marker eggCfg, pyEndsWith path ".egg" = false →
      fs path = .dirSt mt ids marker eggCfg →
      validCache (cacheGet st.workingCache path) mt true = false →
      entrypoints_for_path st fs path =
        .ok (some (entrypoints_from_dir st path mt ids marker).1,
             (entrypoints_from_dir st path mt ids marker).2)
      ∧ cacheGet (scanStep fs st path).st.workingCache path =
          some (entrypoints_from_dir st path mt ids marker).1)
  ∧ (∀ mt zs, pyEndsWith path ".egg" = false →
      fs path = .fileSt mt (some zs) →
      validCache (cacheGet st.workingCache path) mt false = false →
      entrypoints_for_path st fs path =
        .ok (some (entrypoints_from_zip st path mt zs).1,
             (entrypoints_from_zip st path mt zs).2)
      ∧ cacheGet (scanStep fs st path).st.workingCache path =
          some (entrypoints_from_zip st path mt zs).1)
  ∧ (∀ mt c, pyEndsWith path ".egg" = false →
      fs path = .fileSt mt none →
      cacheGet st.workingCache path = some c →
      validCache (cacheGet st.workingCache path) mt false = false →
      entrypoints_for_path st fs path = .ok (none, st)
      ∧ lookupPath (scanStep fs st path).st.workingCache path = some none) := by
  refine ⟨?_, ?_, ?_, ?_, ?_⟩
  · intro c mt isdir hegg hstat hc hmt hdir
    unfold entrypoints_for_path
    rw [hegg, if_neg (by simp)]
    cases hfs : fs path with
    | missing => rw [hfs] at hstat; cases hstat
    | dirSt mt' ids marker eggCfg =>
      rw [hfs] at hstat
      unfold statOf at hstat
      obtain ⟨hmt', hdir'⟩ : mt' = mt ∧ true = isdir := by
        have := Option.some.inj hstat
        exact ⟨congrArg Prod.fst this, congrArg Prod.snd this⟩
      dsimp only
      rw [if_pos (by rw [hc]; unfold validCache; simp [hmt, hdir, hmt', ← hdir'])]
      rw [hc]
    | fileSt mt' z =>
      rw [hfs] at hstat
      unfold statOf at hstat
      obtain ⟨hmt', hdir'⟩ : mt' = mt ∧ false = isdir := by
        have := Option.some.inj hstat
        exact ⟨congrArg Prod.fst this, congrArg Prod.snd this⟩
      dsimp only
      rw [if_pos (by rw [hc]; unfold validCache; simp [hmt, hdir, hmt', ← hdir'])]
      rw [hc]
  · intro c hegg hc
    unfold entrypoints_for_path
    rw [hegg, if_pos rfl, hc]
  · intro mt ids marker eggCfg hegg hfs hv
    obtain ⟨hep, _, hwc, _, _⟩ :=
      scanStep_dir_fresh fs st path mt ids marker eggCfg hegg hfs hv
    refine ⟨hep, ?_⟩
    rw [hwc]
    unfold cacheGet
    rw [lookupPath_cacheSet_self]
    rfl
  · intro mt zs hegg hfs hv
    obtain ⟨hep, _, hcg⟩ := scanStep_zip_fresh fs st path mt zs hegg hfs hv
    exact ⟨hep, hcg⟩
  · intro mt c hegg hfs hc hv
    have hep : entrypoints_for_path st fs path = .ok (none, st) := by
      unfold entrypoints_for_path
      rw [hegg, if_neg (by simp), hfs]
      dsimp only
      rw [if_neg (by rw [hv]; simp)]
    refine ⟨hep, ?_⟩
    unfold scanStep
    rw [hep]
    dsimp only
    rw [if_neg (by rw [hc]; simp)]
    dsimp only
    rw [lookupPath_cacheSet_self]

/-- Counterexample to C1 as stated: a location that exists, is not a
directory and is not a zip archive, with a stale cached entry (stored
mtime 5, current mtime 7).  No fresh scan happens and no scan result is
returned: `entrypoints_for_path` returns Python's implicit `None`. -/
theorem entrypoints_for_path_no_scan_for_plain_file :
    entrypoints_for_path ⟨true, [("p", some ⟨5, false, []⟩)], []⟩
        (fun q => if q = "p" then .fileSt 7 none else .missing) "p" =
      .ok (none, ⟨true, [("p", some ⟨5, false, []⟩)], []⟩)
  ∧ cacheGet ([("p", some (⟨5, false, []⟩ : LocationEP))]) "p" =
      some ⟨5, false, []⟩
  ∧ statOf ((fun q => if q = "p" then .fileSt 7 none else .missing) "p") =
      some (7, false)
  ∧ ∀ (r : LocationEP) (st' : ScannerState),
      entrypoints_for_path ⟨true, [("p", some ⟨5, false, []⟩)], []⟩
          (fun q => if q = "p" then .fileSt 7 none else .missing) "p" ≠
        .ok (some r, st') := by
  have h0 : entrypoints_for_path ⟨true, [("p", some ⟨5, false, []⟩)], []⟩
      (fun q => if q = "p" then .fileSt 7 none else .missing) "p" =
      .ok (none, ⟨true, [("p", some ⟨5, false, []⟩)], []⟩) := rfl
  refine ⟨h0, by decide, by decide, ?_⟩
  intro r st' h
  rw [h0] at h
  exact Option.noConfusion (congrArg Prod.fst (Except.ok.inj h))

/-- Witness for the amended cache-policy theorem: a valid cached entry
is returned unchanged even though the filesystem would scan to something
else, and an egg path's cached entry is trusted though its mtime
changed. -/
theorem entrypoints_for_path_cache_policy_witness :
    entrypoints_for_path ⟨true, [("d", some ⟨5, true, []⟩)], []⟩
        (fun q => if q = "d" then
          .dirSt 5 [("x-1.dist-info", [("g", [("n", "mod:obj")])])] false none
        else .missing) "d" =
      .ok (some ⟨5, true, []⟩, ⟨true, [("d", some ⟨5, true, []⟩)], []⟩)
  ∧ entrypoints_for_path ⟨true, [("e.egg", some ⟨3, true, []⟩)], []⟩
        (fun q => if q = "e.egg" then .fileSt 99 none else .missing) "e.egg" =
      .ok (some ⟨3, true, []⟩, ⟨true, [("e.egg", some ⟨3, true, []⟩)], []⟩) := by
  constructor
  · exact (entrypoints_for_path_cache_policy
      ⟨true, [("d", some ⟨5, true, []⟩)], []⟩
      (fun q => if q = "d" then
        .dirSt 5 [("x-1.dist-info", [("g", [("n", "mod:obj")])])] false none
      else .missing) "d").1
      ⟨5, true, []⟩ 5 true (by decide) (by decide) (by decide) rfl rfl
  · exact (entrypoints_for_path_cache_policy
      ⟨true, [("e.egg", some ⟨3, true, []⟩)], []⟩
      (fun q => if q = "e.egg" then .fileSt 99 none else .missing) "e.egg").2.1
      ⟨3, true, []⟩ (by decide) (by decide)

/-! ## C3: the deferred cache flush -/

theorem foldSteps_nil (fs : FS) (st : ScannerState) : foldSteps fs st [] = st := rfl

theorem foldSteps_cons (fs : FS) (st : ScannerState) (q : String)
    (pre : List String) :
    foldSteps fs st (q :: pre) = foldSteps fs (scanStep fs st q).st pre := rfl

theorem finishScan_wrote (st : ScannerState) (m e : Bool)
    (outs : List (Option LocationEP)) :
    (finishScan st m e outs).wrote = (m && st.cacheFileEnabled) := by
  unfold finishScan
  split
  · next h => exact h.symm
  · next h => exact (Bool.eq_false_iff.mpr h).symm

/-- The flush decision of a (possibly abandoned) `scan` session: the
`finally` block writes exactly when the cache file is configured and the
`cache_modified` accumulator is true, i.e. when some processed step was
dirty. -/
theorem scanRunAux_wrote_iff (fs : FS) :
    ∀ (locs : List String) (pulled : Nat) (st : ScannerState) (m : Bool),
      (scanRunAux fs st m locs pulled).errored = false →
      ((scanRunAux fs st m locs pulled).wrote = true ↔
        (st.cacheFileEnabled = true ∧ (m = true ∨
          ∃ pre x post, locs.take pulled = pre ++ x :: post ∧
            (scanStep fs (foldSteps fs st pre) x).dirty = true))) := by
  intro locs
  induction locs with
  | nil =>
    intro pulled st m _
    rw [scanRunAux_nil, finishScan_wrote]
    simp only [List.take_nil]
    constructor
    · intro h
      obtain ⟨hm, he⟩ := Bool.and_eq_true_iff.mp h
      exact ⟨he, Or.inl hm⟩
    · rintro ⟨he, hm | ⟨pre, x, post, habs, -⟩⟩
      · rw [hm, he]; rfl
      · cases pre <;> simp at habs
  | cons q rest ih =>
    intro pulled st m herr
    match pulled with
    | 0 =>
      rw [scanRunAux_zero] at herr ⊢
      rw [finishScan_wrote]
      simp only [List.take_zero]
      constructor
      · intro h
        obtain ⟨hm, he⟩ := Bool.and_eq_true_iff.mp h
        exact ⟨he, Or.inl hm⟩
      · rintro ⟨he, hm | ⟨pre, x, post, habs, -⟩⟩
        · rw [hm, he]; rfl
        · cases pre <;> simp at habs
    | Nat.succ k =>
      rw [scanRunAux_succ] at herr ⊢
      have henb : (scanStep fs st q).st.cacheFileEnabled = st.cacheFileEnabled :=
        (scanStep_state fs st q).2.2
      generalize hsr : scanStep fs st q = sr at henb herr ⊢
      cases hout : sr.out with
      | none =>
        rw [hout] at herr
        dsimp only at herr
        rw [finishScan_errored] at herr
        simp at herr
      | some o =>
        rw [hout] at herr
        dsimp only at herr ⊢
        rw [ih k sr.st (m || sr.dirty) herr, henb]
        have htake : (q :: rest).take (k + 1) = q :: rest.take k :=
          List.take_succ_cons ..
        constructor
        · rintro ⟨he, hd⟩
          refine ⟨he, ?_⟩
          rcases hd with hmd | ⟨pre, x, post, hdec, hdirty⟩
          · rcases Bool.or_eq_true_iff.mp hmd with hm | hdq
            · exact Or.inl hm
            · refine Or.inr ⟨[], q, rest.take k, by rw [htake]; rfl, ?_⟩
              rw [foldSteps_nil, hsr]
              exact hdq
          · refine Or.inr ⟨q :: pre, x, post, by rw [htake, hdec]; rfl, ?_⟩
            rw [foldSteps_cons, hsr]
            exact hdirty
        · rintro ⟨he, hd⟩
          refine ⟨he, ?_⟩
          rcases hd with hm | ⟨pre, x, post, hdec, hdirty⟩
          · exact Or.inl (by rw [hm]; rfl)
          · rw [htake] at hdec
            cases pre with
            | nil =>
              simp only [List.nil_append] at hdec
              have h1 := List.cons.inj hdec
              rw [← h1.1] at hdirty
              try rw [foldSteps_nil] at hdirty
              rw [hsr] at hdirty
              exact Or.inl (by rw [hdirty, Bool.or_true])
            | cons a pre' =>
              simp only [List.cons_append] at hdec
              have h1 := List.cons.inj hdec
              refine Or.inr ⟨pre', x, post, h1.2, ?_⟩
              rw [← h1.1] at hdirty
              rw [foldSteps_cons, hsr] at hdirty
              exact hdirty

/-- C3: for every location sequence, however much of the lazy `scan`
sequence the consumer pulls before abandoning it (early termination and a
consumer that raises between pulls included — `pulled` counts the values
actually consumed), the deferred `finally` step flushes the store to the
cache file if and only if at least one processed location changed its
cached entry while not marked non-cacheable, i.e. iff the session is
dirty. -/
theorem scan_flushes_iff_dirty (fs : FS) (st : ScannerState)
    (locs : List String) (pulled : Nat)
    (hen : st.cacheFileEnabled = true)
    (hne : (scanRun fs st locs pulled).errored = false) :
    (scanRun fs st locs pulled).wrote = true ↔
      ∃ pre x post, locs.take pulled = pre ++ x :: post ∧
        (scanStep fs (foldSteps fs st pre) x).dirty = true := by
  unfold scanRun at hne ⊢
  rw [scanRunAux_wrote_iff fs locs pulled st false hne]
  simp [hen]

/-- Witness for the flush theorem: one location, pulled once, dirties
the session (its missing-path result is new) and the flush happens; the
same session with the cached entry already present is clean and the
theorem forces no flush. -/
theorem scan_flushes_iff_dirty_witness :
    ((scanRun (fun _ => .missing) ⟨true, [], []⟩ ["a"] 1).wrote = true)
  ∧ ((scanRun (fun _ => .missing)
      ⟨true, [("a", some ⟨-1, false, []⟩)], []⟩ ["a"] 1).wrote = false) := by
  constructor
  · exact (scan_flushes_iff_dirty (fun _ => .missing) ⟨true, [], []⟩ ["a"] 1
      rfl (by decide)).mpr ⟨[], "a", [], rfl, by decide⟩
  · have h := scan_flushes_iff_dirty (fun _ => .missing)
      ⟨true, [("a", some ⟨-1, false, []⟩)], []⟩ ["a"] 1 rfl (by decide)
    by_contra hw
    have hw' : (scanRun (fun _ => .missing)
        ⟨true, [("a", some ⟨-1, false, []⟩)], []⟩ ["a"] 1).wrote = true := by
      cases hwv : (scanRun (fun _ => .missing)
          ⟨true, [("a", some ⟨-1, false, []⟩)], []⟩ ["a"] 1).wrote
      · exact absurd hwv hw
      · rfl
    obtain ⟨pre, x, post, hdec, hdirty⟩ := h.mp hw'
    have hpre : pre = [] ∧ x = "a" ∧ post = [] := by
      cases pre with
      | nil => exact ⟨rfl, (List.cons.inj hdec).1.symm, (List.cons.inj hdec).2.symm⟩
      | cons b pre' =>
        have := (List.cons.inj hdec).2
        cases pre' <;> simp at this
    obtain ⟨h1, h2, -⟩ := hpre
    rw [h1, h2] at hdirty
    revert hdirty
    decide

/-! ## String order lemmas -/

theorem charsLe_refl : ∀ l : List Char, charsLe l l = true := by
  intro l
  induction l with
  | nil => rfl
  | cons a as ih =>
    rw [charsLe]
    rw [if_neg (lt_irrefl a), if_neg (lt_irrefl a)]
    exact ih

theorem charsLe_total : ∀ x y : List Char, charsLe x y = true ∨ charsLe y x = true := by
  intro x
  induction x with
  | nil => intro y; exact Or.inl rfl
  | cons a as ih =>
    intro y
    cases y with
    | nil => exact Or.inr rfl
    | cons b bs =>
      rw [charsLe, charsLe]
      rcases lt_trichotomy a b with h | h | h
      · exact Or.inl (by rw [if_pos h])
      · subst h
        rw [if_neg (lt_irrefl a), if_neg (lt_irrefl a),
          if_neg (lt_irrefl a), if_neg (lt_irrefl a)]
        exact ih bs
      · exact Or.inr (by rw [if_pos h])

theorem charsLe_trans :
    ∀ x y z : List Char, charsLe x y = true → charsLe y z = true →
      charsLe x z = true := by
  intro x
  induction x with
  | nil => intro y z _ _; rfl
  | cons a as ih =>
    intro y z hxy hyz
    cases y with
    | nil => rw [charsLe] at hxy; cases hxy
    | cons b bs =>
      cases z with
      | nil => rw [charsLe] at hyz; cases hyz
      | cons c cs =>
        rw [charsLe] at hxy hyz ⊢
        rcases lt_trichotomy a b with h1 | h1 | h1
        · rcases lt_trichotomy b c with h2 | h2 | h2
          · rw [if_pos (lt_trans h1 h2)]
          · subst h2; rw [if_pos h1]
          · rw [if_neg (not_lt_of_gt h2), if_pos h2] at hyz; cases hyz
        · subst h1
          rcases lt_trichotomy a c with h2 | h2 | h2
          · rw [if_pos h2]
          · subst h2
            rw [if_neg (lt_irrefl a), if_neg (lt_irrefl a)] at hxy hyz ⊢
            exact ih bs cs hxy hyz
          · rw [if_neg (not_lt_of_gt h2), if_pos h2] at hyz; cases hyz
        · rw [if_neg (not_lt_of_gt h1), if_pos h1] at hxy; cases hxy

theorem charsLe_antisymm :
    ∀ x y : List Char, charsLe x y = true → charsLe y x = true → x = y := by
  intro x
  induction x with
  | nil =>
    intro y _ hyx
    cases y with
    | nil => rfl
    | cons b bs => rw [charsLe] at hyx; cases hyx
  | cons a as ih =>
    intro y hxy hyx
    cases y with
    | nil => rw [charsLe] at hxy; cases hxy
    | cons b bs =>
      rw [charsLe] at hxy hyx
      rcases lt_trichotomy a b with h1 | h1 | h1
      · rw [if_neg (not_lt_of_gt h1), if_pos h1] at hyx; cases hyx
      · subst h1
        rw [if_neg (lt_irrefl a), if_neg (lt_irrefl a)] at hxy hyx
        rw [ih bs hxy hyx]
      · rw [if_neg (not_lt_of_gt h1), if_pos h1] at hxy; cases hxy

theorem strLe_refl (s : String) : strLe s s = true := charsLe_refl s.data

theorem strLe_total (s t : String) : strLe s t = true ∨ strLe t s = true :=
  charsLe_total s.data t.data

theorem strLe_trans {s t u : String} (h1 : strLe s t = true)
    (h2 : strLe t u = true) : strLe s u = true :=
  charsLe_trans s.data t.data u.data h1 h2

theorem strLe_antisymm {s t : String} (h1 : strLe s t = true)
    (h2 : strLe t s = true) : s = t := by
  cases s with
  | mk ds =>
    cases t with
    | mk dt =>
      have := charsLe_antisymm ds dt h1 h2
      rw [this]

/-! ## Sorting by key: uniqueness and decomposition lemmas -/

/-- The comparison `sortByKey` sorts with. -/
theorem keyLe_trans {α : Type} (a b c : String × α)
    (h1 : strLe a.1 b.1 = true) (h2 : strLe b.1 c.1 = true) :
    strLe a.1 c.1 = true := strLe_trans h1 h2

theorem keyLe_total {α : Type} (a b : String × α) :
    (strLe a.1 b.1 || strLe b.1 a.1) = true := by
  rcases strLe_total a.1 b.1 with h | h <;> simp [h]

theorem sortByKey_perm {α : Type} (l : List (String × α)) :
    (sortByKey l).Perm l := List.mergeSort_perm l _

theorem sortByKey_pairwise {α : Type} (l : List (String × α)) :
    (sortByKey l).Pairwise (fun a b => strLe a.1 b.1 = true) :=
  @List.sorted_mergeSort _ (fun a b => strLe a.1 b.1)
    (fun a b c => keyLe_trans a b c) (fun a b => keyLe_total a b) l

/-- Two key-sorted lists that are permutations of each other and whose
keys are distinct are equal. -/
theorem sorted_key_perm_eq {α : Type} :
    ∀ (l₁ l₂ : List (String × α)),
      l₁.Pairwise (fun a b => strLe a.1 b.1 = true) →
      l₂.Pairwise (fun a b => strLe a.1 b.1 = true) →
      (l₁.map Prod.fst).Nodup → l₁.Perm l₂ → l₁ = l₂ := by
  intro l₁
  induction l₁ with
  | nil =>
    intro l₂ _ _ _ hperm
    exact (List.Perm.nil_eq hperm).symm ▸ rfl
  | cons a t ih =>
    intro l₂ hs₁ hs₂ hnd hperm
    cases l₂ with
    | nil => exact absurd hperm.symm (by simp)
    | cons b t₂ =>
      have hab : a = b := by
        have hbmem : b ∈ a :: t := hperm.mem_iff.mpr (List.mem_cons_self b t₂)
        have hamem : a ∈ b :: t₂ := hperm.mem_iff.mp (List.mem_cons_self a t)
        rcases List.mem_cons.mp hbmem with h | hbt
        · exact h.symm
        · rcases List.mem_cons.mp hamem with h | hat
          · exact h
          · -- a after b in l₂ and b after a in l₁: their keys are equal,
            -- contradicting key distinctness unless the pairs coincide
            have h1 : strLe a.1 b.1 = true :=
              (List.pairwise_cons.mp hs₁).1 b hbt
            have h2 : strLe b.1 a.1 = true :=
              (List.pairwise_cons.mp hs₂).1 a hat
            have hkey : a.1 = b.1 := strLe_antisymm h1 h2
            exfalso
            have : a.1 ∈ t.map Prod.fst :=
              hkey ▸ List.mem_map.mpr ⟨b, hbt, rfl⟩
            exact (List.nodup_cons.mp (by simpa using hnd)).1 this
      subst hab
      have hperm' : t.Perm t₂ := hperm.cons_inv
      have := ih t₂ (List.pairwise_cons.mp hs₁).2 (List.pairwise_cons.mp hs₂).2
        (by simpa using (List.nodup_cons.mp (by simpa using hnd)).2) hperm'
      rw [this]

/-- Sorting is invariant under permutation when keys are distinct. -/
theorem sortByKey_perm_nodup {α : Type} (l l' : List (String × α))
    (hperm : l.Perm l') (hnd : (l.map Prod.fst).Nodup) :
    sortByKey l = sortByKey l' := by
  apply sorted_key_perm_eq
  · exact sortByKey_pairwise l
  · exact sortByKey_pairwise l'
  · exact ((sortByKey_perm l).map Prod.fst).nodup_iff.mpr hnd
  · exact ((sortByKey_perm l).trans hperm).trans (sortByKey_perm l').symm

/-- Replacing a key-equal element preserves key-sortedness. -/
theorem pairwise_key_replace {α : Type} (A B : List (String × α))
    (x y : String × α) (hxy : x.1 = y.1)
    (h : (A ++ x :: B).Pairwise (fun a b => strLe a.1 b.1 = true)) :
    (A ++ y :: B).Pairwise (fun a b => strLe a.1 b.1 = true) := by
  rw [List.pairwise_append] at h ⊢
  obtain ⟨hA, hxB, hcross⟩ := h
  rw [List.pairwise_cons] at hxB ⊢
  refine ⟨hA, ⟨?_, hxB.2⟩, ?_⟩
  · intro b hb
    have := hxB.1 b hb
    rwa [hxy] at this
  · intro u hu v hv
    rcases List.mem_cons.mp hv with rfl | hv'
    · have := hcross u hu x (List.mem_cons_self x B)
      rwa [hxy] at this
    · exact hcross u hu v (List.mem_cons.mpr (Or.inr hv'))

/-- Where `sortByKey` puts an element, and what sorting without it
gives: removal from the sorted list. -/
theorem sortByKey_remove {α : Type} (l1 l2 : List (String × α))
    (x : String × α)
    (hnd : ((l1 ++ x :: l2).map Prod.fst).Nodup) :
    ∃ A B, sortByKey (l1 ++ x :: l2) = A ++ x :: B
      ∧ sortByKey (l1 ++ l2) = A ++ B := by
  have hmem : x ∈ sortByKey (l1 ++ x :: l2) :=
    (sortByKey_perm _).mem_iff.mpr (List.mem_append.mpr (Or.inr (List.mem_cons_self x l2)))
  obtain ⟨A, B, hAB⟩ := List.append_of_mem hmem
  refine ⟨A, B, hAB, ?_⟩
  have hperm1 : (A ++ x :: B).Perm (l1 ++ x :: l2) := hAB ▸ sortByKey_perm _
  have hpermAB : (A ++ B).Perm (l1 ++ l2) := by
    have h1 : (x :: (A ++ B)).Perm (x :: (l1 ++ l2)) :=
      (List.perm_middle.symm.trans hperm1).trans List.perm_middle
    exact h1.cons_inv
  have hsortedAB : (A ++ B).Pairwise (fun a b => strLe a.1 b.1 = true) := by
    have hsub : (A ++ B).Sublist (A ++ x :: B) :=
      (List.sublist_cons_self x B).append_left A
    exact List.Pairwise.sublist hsub (hAB ▸ sortByKey_pairwise _)
  have hndAB : ((sortByKey (l1 ++ l2)).map Prod.fst).Nodup := by
    have hnd' : ((l1 ++ l2).map Prod.fst).Nodup := by
      have hsub : (l1 ++ l2).Sublist (l1 ++ x :: l2) :=
        (List.sublist_cons_self x l2).append_left l1
      exact (hsub.map Prod.fst).nodup hnd
    exact ((sortByKey_perm (l1 ++ l2)).map Prod.fst).nodup_iff.mpr hnd'
  exact sorted_key_perm_eq _ _ (sortByKey_pairwise _) hsortedAB hndAB
    ((sortByKey_perm _).trans hpermAB.symm)

/-- Replacing the value stored under one key moves nothing in the sorted
order. -/
theorem sortByKey_replace {α : Type} (l1 l2 : List (String × α))
    (g : String) (v v' : α)
    (hnd : ((l1 ++ (g, v) :: l2).map Prod.fst).Nodup) :
    ∃ A B, sortByKey (l1 ++ (g, v) :: l2) = A ++ (g, v) :: B
      ∧ sortByKey (l1 ++ (g, v') :: l2) = A ++ (g, v') :: B := by
  have hmem : (g, v) ∈ sortByKey (l1 ++ (g, v) :: l2) :=
    (sortByKey_perm _).mem_iff.mpr
      (List.mem_append.mpr (Or.inr (List.mem_cons_self _ l2)))
  obtain ⟨A, B, hAB⟩ := List.append_of_mem hmem
  refine ⟨A, B, hAB, ?_⟩
  have hperm1 : (A ++ (g, v) :: B).Perm (l1 ++ (g, v) :: l2) :=
    hAB ▸ sortByKey_perm _
  have hpermAB : (A ++ B).Perm (l1 ++ l2) := by
    have h1 : ((g, v) :: (A ++ B)).Perm ((g, v) :: (l1 ++ l2)) :=
      (List.perm_middle.symm.trans hperm1).trans List.perm_middle
    exact h1.cons_inv
  have hperm2 : (A ++ (g, v') :: B).Perm (l1 ++ (g, v') :: l2) := by
    have h1 : (A ++ (g, v') :: B).Perm ((g, v') :: (A ++ B)) := List.perm_middle
    have h2 : ((g, v') :: (l1 ++ l2)).Perm (l1 ++ (g, v') :: l2) :=
      List.perm_middle.symm
    exact (h1.trans (hpermAB.cons (g, v'))).trans h2
  have hsorted2 : (A ++ (g, v') :: B).Pairwise (fun a b => strLe a.1 b.1 = true) :=
    pairwise_key_replace A B (g, v) (g, v') rfl (hAB ▸ sortByKey_pairwise _)
  have hnd2 : ((sortByKey (l1 ++ (g, v') :: l2)).map Prod.fst).Nodup := by
    have heq : (l1 ++ (g, v') :: l2).map Prod.fst =
        (l1 ++ (g, v) :: l2).map Prod.fst := by simp
    exact ((sortByKey_perm _).map Prod.fst).nodup_iff.mpr (heq ▸ hnd)
  exact (sorted_key_perm_eq _ _ (sortByKey_pairwise _) hsorted2 hnd2
    ((sortByKey_perm _).trans hperm2.symm)).symm ▸ rfl

/-! ## C7: sorted, fault-tolerant metadata extraction -/

/-- C7: `entrypoints_from_configparser` traverses groups and entry names
in lexicographically sorted order, not file order — its output (and its
warning log) is invariant under permuting the groups and under permuting
the entries within a group (section and option names are unique in a
parsed file) — and a record whose entry-point string fails to parse is
omitted alone: removing it from the file leaves the output unchanged,
and its raw string is logged as a warning, while all other records of
the file are unaffected. -/
theorem configparser_sorted_and_skips_bad :
    (∀ (cp cp' : List (String × List (String × String))),
      (cp.map Prod.fst).Nodup → cp.Perm cp' →
      entrypoints_from_configparser cp = entrypoints_from_configparser cp'
      ∧ configparser_warnings cp = configparser_warnings cp')
  ∧ (∀ (pre post : List (String × List (String × String))) (g : String)
       (gr gr' : List (String × String)),
      ((pre ++ (g, gr) :: post).map Prod.fst).Nodup →
      (gr.map Prod.fst).Nodup → gr.Perm gr' →
      entrypoints_from_configparser (pre ++ (g, gr) :: post) =
        entrypoints_from_configparser (pre ++ (g, gr') :: post)
      ∧ configparser_warnings (pre ++ (g, gr) :: post) =
        configparser_warnings (pre ++ (g, gr') :: post))
  ∧ (∀ (cp1 cp2 : List (String × List (String × String))) (g n s : String)
       (pre post : List (String × String)),
      ((cp1 ++ (g, pre ++ (n, s) :: post) :: cp2).map Prod.fst).Nodup →
      ((pre ++ (n, s) :: post).map Prod.fst).Nodup →
      entry_point_pattern s.data = none →
      entrypoints_from_configparser (cp1 ++ (g, pre ++ (n, s) :: post) :: cp2) =
        entrypoints_from_configparser (cp1 ++ (g, pre ++ post) :: cp2)
      ∧ s ∈ configparser_warnings (cp1 ++ (g, pre ++ (n, s) :: post) :: cp2)) := by
  refine ⟨?_, ?_, ?_⟩
  · intro cp cp' hnd hperm
    unfold entrypoints_from_configparser configparser_warnings
    rw [sortByKey_perm_nodup cp cp' hperm hnd]
    exact ⟨rfl, rfl⟩
  · intro pre post g gr gr' hnd hgrnd hperm
    obtain ⟨A, B, h1, h2⟩ := sortByKey_replace pre post g gr gr' hnd
    have hinner : sortByKey gr = sortByKey gr' :=
      sortByKey_perm_nodup gr gr' hperm hgrnd
    unfold entrypoints_from_configparser configparser_warnings
    rw [h1, h2, List.flatMap_append, List.flatMap_append,
      List.flatMap_cons, List.flatMap_cons, List.flatMap_append,
      List.flatMap_append, List.flatMap_cons, List.flatMap_cons]
    dsimp only
    rw [hinner]
    exact ⟨rfl, rfl⟩
  · intro cp1 cp2 g n s pre post houter hinner hbad
    obtain ⟨A, B, h1, h2⟩ := sortByKey_remove pre post (n, s) hinner
    have hrec : epRecord g n s = none := by
      unfold epRecord
      rw [hbad]
    have hmid : (sortByKey (pre ++ (n, s) :: post)).filterMap
        (fun e => epRecord g e.1 e.2) =
        (sortByKey (pre ++ post)).filterMap (fun e => epRecord g e.1 e.2) := by
      rw [h1, h2, List.filterMap_append, List.filterMap_append,
        List.filterMap_cons]
      dsimp only
      rw [hrec]
    obtain ⟨C, D, ho1, ho2⟩ :=
      sortByKey_replace cp1 cp2 g (pre ++ (n, s) :: post) (pre ++ post) houter
    constructor
    · unfold entrypoints_from_configparser
      rw [ho1, ho2, List.flatMap_append, List.flatMap_append,
        List.flatMap_cons, List.flatMap_cons]
      dsimp only
      rw [hmid]
    · unfold configparser_warnings
      apply List.mem_flatMap.mpr
      refine ⟨(g, pre ++ (n, s) :: post), ?_, ?_⟩
      · rw [ho1]
        exact List.mem_append.mpr (Or.inr (List.mem_cons_self _ D))
      · dsimp only
        apply List.mem_filterMap.mpr
        refine ⟨(n, s), ?_, ?_⟩
        · rw [h1]
          exact List.mem_append.mpr (Or.inr (List.mem_cons_self _ B))
        · dsimp only
          rw [hbad]

/-- Witness for the extraction theorem on a concrete parsed file: group
order in the file does not matter, and a bad record is dropped alone,
with its raw string warned. -/
theorem configparser_sorted_and_skips_bad_witness :
    (entrypoints_from_configparser
        [("b", [("x", "m:o")]), ("a", [("z", "m2")])] =
      entrypoints_from_configparser
        [("a", [("z", "m2")]), ("b", [("x", "m:o")])])
  ∧ (entrypoints_from_configparser
        [("g", [("bad", "not an entry point"), ("ok", "mod:obj")])] =
      entrypoints_from_configparser [("g", [("ok", "mod:obj")])])
  ∧ "not an entry point" ∈ configparser_warnings
      [("g", [("bad", "not an entry point"), ("ok", "mod:obj")])] := by
  refine ⟨?_, ?_, ?_⟩
  · exact (configparser_sorted_and_skips_bad.1
      [("b", [("x", "m:o")]), ("a", [("z", "m2")])]
      [("a", [("z", "m2")]), ("b", [("x", "m:o")])]
      (by decide) (by decide)).1
  · exact (configparser_sorted_and_skips_bad.2.2
      [] [] "g" "bad" "not an entry point" [] [("ok", "mod:obj")]
      (by decide) (by decide) (by decide)).1
  · exact (configparser_sorted_and_skips_bad.2.2
      [] [] "g" "bad" "not an entry point" [] [("ok", "mod:obj")]
      (by decide) (by decide) (by decide)).2

/-! ## C6: the entry-point regex against the declarative grammar -/

/-- Splitting a list at the first character failing `p` determines
`takeWhile` and `dropWhile`. -/
theorem takeWhile_dropWhile_of_split (p : Char → Bool) :
    ∀ (w r : List Char), (∀ c ∈ w, p c = true) →
      (r = [] ∨ ∃ c cs, r = c :: cs ∧ p c = false) →
      (w ++ r).takeWhile p = w ∧ (w ++ r).dropWhile p = r := by
  intro w
  induction w with
  | nil =>
    intro r _ hr
    simp only [List.nil_append]
    rcases hr with rfl | ⟨c, cs, rfl, hc⟩
    · exact ⟨rfl, rfl⟩
    · rw [List.takeWhile_cons, List.dropWhile_cons, hc]
      exact ⟨rfl, rfl⟩
  | cons a w' ih =>
    intro r hw hr
    have ha : p a = true := hw a (List.mem_cons_self a w')
    have ih' := ih r (fun c hc => hw c (List.mem_cons_of_mem a hc)) hr
    rw [List.cons_append, List.takeWhile_cons, List.dropWhile_cons, ha]
    simp only [ih'.1, ih'.2]
    exact ⟨rfl, rfl⟩

/-- Whitespace characters are not word characters, dots, colons or
opening brackets. -/
theorem isPySpace_not_word {c : Char} (h : isPySpace c = true) :
    isWordChar c = false ∧ c ≠ '.' ∧ c ≠ ':' ∧ c ≠ '[' := by
  unfold isPySpace at h
  simp only [Bool.or_eq_true, decide_eq_true_eq] at h
  rcases h with ((((rfl | rfl) | rfl) | rfl) | rfl) | rfl <;>
    exact ⟨by decide, by decide, by decide, by decide⟩

/-- Soundness of the dotted-name munch: a successful return splits the
input and the matched part is a dotted name. -/
theorem munchDottedFuel_sound :
    ∀ (fuel : Nat) (s m r : List Char),
      munchDottedFuel fuel s = some (m, r) → s = m ++ r ∧ Dotted m := by
  intro fuel
  induction fuel with
  | zero =>
    intro s m r h
    simp [munchDottedFuel] at h
  | succ fuel ih =>
    intro s m r h
    rw [munchDottedFuel] at h
    split at h
    · cases h
    · next hw =>
      have hword : ∀ c ∈ s.takeWhile isWordChar, isWordChar c = true :=
        fun c hc => List.mem_takeWhile_imp hc
      have hsplit : s.takeWhile isWordChar ++ s.dropWhile isWordChar = s :=
        List.takeWhile_append_dropWhile _ _
      split at h
      · next c r' hdrop =>
        split at h
        · next hc =>
          split at h
          · next m2r2 hrec =>
            have h2 := Option.some.inj h
            have hm : m = s.takeWhile isWordChar ++ '.' :: m2r2.1 :=
              (congrArg Prod.fst h2).symm
            have hr : r = m2r2.2 := (congrArg Prod.snd h2).symm
            obtain ⟨hr', hdot⟩ := ih r' m2r2.1 m2r2.2 (by rw [hrec])
            subst hm hr hc
            constructor
            · rw [hdrop, hr'] at hsplit
              exact hsplit.symm.trans (by simp)
            · exact Dotted.cons _ _ hw hword hdot
          · next hrec =>
            have h2 := Option.some.inj h
            have hm : m = s.takeWhile isWordChar := (congrArg Prod.fst h2).symm
            have hr : r = c :: r' := (congrArg Prod.snd h2).symm
            subst hm hr
            refine ⟨?_, Dotted.single _ hw hword⟩
            rw [hdrop] at hsplit
            exact hsplit.symm
        · next hc =>
          have h2 := Option.some.inj h
          have hm : m = s.takeWhile isWordChar := (congrArg Prod.fst h2).symm
          have hr : r = c :: r' := (congrArg Prod.snd h2).symm
          subst hm hr
          refine ⟨?_, Dotted.single _ hw hword⟩
          rw [hdrop] at hsplit
          exact hsplit.symm
      · next hdrop =>
        have h2 := Option.some.inj h
        have hm : m = s.takeWhile isWordChar := (congrArg Prod.fst h2).symm
        have hr : r = [] := (congrArg Prod.snd h2).symm
        subst hm hr
        refine ⟨?_, Dotted.single _ hw hword⟩
        rw [hdrop] at hsplit
        exact hsplit.symm.trans (by simp)

/-- Completeness of the dotted-name munch: a dotted name followed by a
residue that cannot extend it is matched exactly, given enough fuel. -/
theorem munchDottedFuel_complete (r : List Char)
    (hr : r = [] ∨ ∃ c cs, r = c :: cs ∧ isWordChar c = false ∧ c ≠ '.') :
    ∀ (m : List Char), Dotted m →
    ∀ (fuel : Nat), (m ++ r).length ≤ fuel →
      munchDottedFuel fuel (m ++ r) = some (m, r) := by
  intro m hm
  have hrweak : r = [] ∨ ∃ c cs, r = c :: cs ∧ isWordChar c = false := by
    rcases hr with h | ⟨c, cs, h1, h2, _⟩
    · exact Or.inl h
    · exact Or.inr ⟨c, cs, h1, h2⟩
  induction hm with
  | single w hw hword =>
    intro fuel hfuel
    cases fuel with
    | zero =>
      exfalso
      have h1 : 1 ≤ w.length := by
        cases hww : w with
        | nil => exact absurd hww hw
        | cons x xs => simp
      rw [List.length_append] at hfuel
      omega
    | succ f =>
      rw [munchDottedFuel]
      have htd := takeWhile_dropWhile_of_split isWordChar w r hword hrweak
      rw [htd.1, htd.2, if_neg hw]
      rcases hr with rfl | ⟨c, cs, rfl, -, hcdot⟩
      · rfl
      · dsimp only
        rw [if_neg hcdot]
  | cons w rest hw hword hrest ih =>
    intro fuel hfuel
    cases fuel with
    | zero =>
      exfalso
      have h1 : 1 ≤ w.length := by
        cases hww : w with
        | nil => exact absurd hww hw
        | cons x xs => simp
      simp only [List.length_append, List.length_cons] at hfuel
      omega
    | succ f =>
      have hassoc : (w ++ '.' :: rest) ++ r = w ++ ('.' :: (rest ++ r)) := by
        simp
      rw [hassoc, munchDottedFuel]
      have htd := takeWhile_dropWhile_of_split isWordChar w ('.' :: (rest ++ r))
        hword (Or.inr ⟨'.', rest ++ r, rfl, by decide⟩)
      rw [htd.1, htd.2, if_neg hw]
      dsimp only
      rw [if_pos rfl]
      have hlen : (rest ++ r).length ≤ f := by
        have h1 : 1 ≤ w.length := by
          cases hww : w with
          | nil => exact absurd hww hw
          | cons x xs => simp
        simp only [List.length_append, List.length_cons] at hfuel ⊢
        omega
      rw [ih f hlen]

/-- Soundness of the reversed extras check. -/
theorem extrasRev_sound (l p : List Char) (h : extrasRev l = some p) :
    p ≠ [] ∧ (∀ c ∈ p, c ≠ '\n') ∧
    (l = ']' :: p.reverse ∨ l = '\n' :: ']' :: p.reverse) := by
  unfold extrasRev at h
  split at h
  · next d rev1 =>
    split at h
    · next hd =>
      split at h
      · next hguard =>
        have hp : p = rev1.reverse := (Option.some.inj h).symm
        obtain ⟨h1, h2⟩ := Bool.and_eq_true_iff.mp hguard
        subst hp hd
        refine ⟨by simpa using h1, ?_, Or.inl ?_⟩
        · intro cc hcc
          simpa using List.all_eq_true.mp h2 cc hcc
        · rw [List.reverse_reverse]
      · cases h
    · next hd =>
      split at h
      · next hd2 =>
        split at h
        · next e rev2 =>
          split at h
          · next he =>
            split at h
            · next hguard =>
              have hp : p = rev2.reverse := (Option.some.inj h).symm
              obtain ⟨h1, h2⟩ := Bool.and_eq_true_iff.mp hguard
              subst hp hd2 he
              refine ⟨by simpa using h1, ?_, Or.inr ?_⟩
              · intro cc hcc
                simpa using List.all_eq_true.mp h2 cc hcc
              · rw [List.reverse_reverse]
            · cases h
          · cases h
        · cases h
      · cases h
  · cases h

/-- Completeness of the reversed extras check. -/
theorem extrasRev_complete (p : List Char) (hp : p ≠ [])
    (hn : ∀ c ∈ p, c ≠ '\n') :
    extrasRev (']' :: p.reverse) = some p
  ∧ extrasRev ('\n' :: ']' :: p.reverse) = some p := by
  have hguard : (decide (p.reverse.reverse ≠ []) &&
      p.reverse.reverse.all fun x => decide (x ≠ '\n')) = true := by
    rw [List.reverse_reverse, Bool.and_eq_true]
    exact ⟨decide_eq_true hp,
      List.all_eq_true.mpr (fun c hc => decide_eq_true (hn c hc))⟩
  constructor
  · unfold extrasRev
    dsimp only
    rw [if_pos rfl, if_pos hguard, List.reverse_reverse]
  · unfold extrasRev
    dsimp only
    rw [if_neg (by decide), if_pos rfl]
    rw [if_pos rfl, if_pos hguard, List.reverse_reverse]

/-- Soundness of the extras tail: a successful parse pins down the
bracketed payload and the `$`-anchored remainder. -/
theorem extrasTail_sound (r3 p : List Char) (h : extrasTail r3 = some p) :
    p ≠ [] ∧ (∀ c ∈ p, c ≠ '\n') ∧
    (r3 = '[' :: (p ++ [']']) ∨ r3 = '[' :: (p ++ [']', '\n'])) := by
  unfold extrasTail at h
  split at h
  · next c rest =>
    split at h
    · next hc =>
      obtain ⟨h1, h2, hforms⟩ := extrasRev_sound rest.reverse p h
      subst hc
      refine ⟨h1, h2, ?_⟩
      rcases hforms with hf | hf
      · left
        have := congrArg List.reverse hf
        rw [List.reverse_reverse] at this
        rw [this]
        simp
      · right
        have := congrArg List.reverse hf
        rw [List.reverse_reverse] at this
        rw [this]
        simp
    · cases h
  · cases h

/-- Completeness of the extras tail on well-formed inputs. -/
theorem extrasTail_complete (p : List Char) (hp : p ≠ [])
    (hn : ∀ c ∈ p, c ≠ '\n') :
    extrasTail ('[' :: (p ++ [']'])) = some p
  ∧ extrasTail ('[' :: (p ++ [']', '\n'])) = some p := by
  constructor
  · unfold extrasTail
    dsimp only
    rw [if_pos rfl]
    have hrev : (p ++ [']']).reverse = ']' :: p.reverse := by simp
    rw [hrev]
    exact (extrasRev_complete p hp hn).1
  · unfold extrasTail
    dsimp only
    rw [if_pos rfl]
    have hrev : (p ++ [']', '\n']).reverse = '\n' :: ']' :: p.reverse := by simp
    rw [hrev]
    exact (extrasRev_complete p hp hn).2

/-- Soundness of the optional-attribute step. -/
theorem objStep_sound (r1 : List Char) :
    ((objStep r1).1 = none ∧ (objStep r1).2 = r1)
  ∨ (∃ an, (objStep r1).1 = some an ∧ Dotted an
      ∧ r1 = ':' :: (an ++ (objStep r1).2)) := by
  unfold objStep
  split
  · next c r1' =>
    split
    · next hc =>
      split
      · next or2 hmd =>
        right
        unfold munchDotted at hmd
        obtain ⟨hsp, hdot⟩ := munchDottedFuel_sound r1'.length r1' or2.1 or2.2
          (by rw [hmd])
        exact ⟨or2.1, rfl, hdot, by rw [hc, hsp]⟩
      · left; exact ⟨rfl, rfl⟩
    · left; exact ⟨rfl, rfl⟩
  · left; exact ⟨rfl, rfl⟩

/-- Soundness of the whitespace-and-extras tail step. -/
theorem tailStep_sound (m0 : List Char) (obj : Option (List Char))
    (r2 : List Char) (m : List Char) (a e : Option (List Char))
    (h : tailStep m0 obj r2 = some ⟨m, a, e⟩) :
    m = m0 ∧ a = obj ∧
    ∃ ws tl, r2 = ws ++ tl ∧ (∀ c ∈ ws, isPySpace c = true) ∧
      ((e = none ∧ tl = []) ∨
       (∃ p, e = some p ∧ p ≠ [] ∧ (∀ c ∈ p, c ≠ '\n') ∧
          (tl = '[' :: (p ++ [']']) ∨ tl = '[' :: (p ++ [']', '\n'])))) := by
  unfold tailStep at h
  have hsplit2 : r2.takeWhile isPySpace ++ r2.dropWhile isPySpace = r2 :=
    List.takeWhile_append_dropWhile _ _
  have hws : ∀ c ∈ r2.takeWhile isPySpace, isPySpace c = true :=
    fun c hc => List.mem_takeWhile_imp hc
  split at h
  · next hnil =>
    have h2 := Option.some.inj h
    refine ⟨(congrArg RefMatch.modulename h2).symm,
      (congrArg RefMatch.objectname h2).symm,
      r2.takeWhile isPySpace, [], ?_, hws,
      Or.inl ⟨(congrArg RefMatch.extras h2).symm, rfl⟩⟩
    rw [hnil] at hsplit2
    exact hsplit2.symm
  · split at h
    · next payload hex =>
      have h2 := Option.some.inj h
      obtain ⟨hp1, hp2, hforms⟩ := extrasTail_sound _ payload hex
      exact ⟨(congrArg RefMatch.modulename h2).symm,
        (congrArg RefMatch.objectname h2).symm,
        r2.takeWhile isPySpace, r2.dropWhile isPySpace, hsplit2.symm, hws,
        Or.inr ⟨payload, (congrArg RefMatch.extras h2).symm, hp1, hp2, hforms⟩⟩
    · cases h

/-- Soundness of `entry_point_pattern` against the declarative
grammar. -/
theorem entry_point_pattern_sound (s m : List Char) (a e : Option (List Char))
    (h : entry_point_pattern s = some ⟨m, a, e⟩) : GrammarDecomp s m a e := by
  unfold entry_point_pattern at h
  split at h
  · cases h
  · next mr1 hmd =>
    unfold munchDotted at hmd
    obtain ⟨hs, hdot⟩ := munchDottedFuel_sound s.length s mr1.1 mr1.2 (by rw [hmd])
    obtain ⟨hm0, ha0, ws, tl, hr2, hws, hforms⟩ :=
      tailStep_sound mr1.1 (objStep mr1.2).1 (objStep mr1.2).2 m a e h
    subst hm0 ha0
    rcases objStep_sound mr1.2 with ⟨ho1, ho2⟩ | ⟨an, ho1, hdan, ho2⟩
    · exact ⟨mr1.2, (objStep mr1.2).2, ws, tl, hs, hdot,
        Or.inl ⟨ho1, ho2⟩, hr2, hws, hforms⟩
    · exact ⟨mr1.2, (objStep mr1.2).2, ws, tl, hs, hdot,
        Or.inr ⟨an, ho1, hdan, ho2⟩, hr2, hws, hforms⟩

/-- Completeness of `entry_point_pattern` against the declarative
grammar: every decomposition is found, with exactly its pieces. -/
theorem entry_point_pattern_complete (s m : List Char) (a e : Option (List Char))
    (h : GrammarDecomp s m a e) : entry_point_pattern s = some ⟨m, a, e⟩ := by
  obtain ⟨r1, r2, ws, tl, hs, hdot, hobj, hr2, hws, hforms⟩ := h
  have htl_head : tl = [] ∨ ∃ cs, tl = '[' :: cs := by
    rcases hforms with ⟨-, rfl⟩ | ⟨p, -, -, -, hf | hf⟩
    · exact Or.inl rfl
    · exact Or.inr ⟨_, hf⟩
    · exact Or.inr ⟨_, hf⟩
  have hr2cond : r2 = [] ∨
      ∃ c cs, r2 = c :: cs ∧ isWordChar c = false ∧ c ≠ '.' ∧ c ≠ ':' := by
    subst hr2
    cases ws with
    | nil =>
      rcases htl_head with rfl | ⟨cs, rfl⟩
      · exact Or.inl rfl
      · exact Or.inr ⟨'[', cs, rfl, by decide, by decide, by decide⟩
    | cons w ws' =>
      obtain ⟨h1, h2, h3, -⟩ := isPySpace_not_word (hws w (List.mem_cons_self w ws'))
      exact Or.inr ⟨w, ws' ++ tl, rfl, h1, h2, h3⟩
  have hr2weak : r2 = [] ∨ ∃ c cs, r2 = c :: cs ∧ isWordChar c = false ∧ c ≠ '.' := by
    rcases hr2cond with h | ⟨c, cs, h1, h2, h3, -⟩
    · exact Or.inl h
    · exact Or.inr ⟨c, cs, h1, h2, h3⟩
  have hr1cond : r1 = [] ∨ ∃ c cs, r1 = c :: cs ∧ isWordChar c = false ∧ c ≠ '.' := by
    rcases hobj with ⟨-, hr⟩ | ⟨an, -, -, hr1⟩
    · rw [← hr]
      exact hr2weak
    · exact Or.inr ⟨':', an ++ r2, hr1, by decide, by decide⟩
  have hmd : munchDotted s = some (m, r1) := by
    rw [hs]
    unfold munchDotted
    exact munchDottedFuel_complete r1 hr1cond m hdot (m ++ r1).length le_rfl
  unfold entry_point_pattern
  rw [hmd]
  dsimp only
  have hos : objStep r1 = (a, r2) := by
    rcases hobj with ⟨ha, hr⟩ | ⟨an, ha, hdan, hr1⟩
    · subst ha
      rw [← hr]
      rcases hr2cond with rfl | ⟨c, cs, hcons, -, -, hcne⟩
      · rfl
      · rw [hcons]
        unfold objStep
        dsimp only
        rw [if_neg hcne]
    · subst ha hr1
      unfold objStep
      dsimp only
      rw [if_pos rfl]
      have hmd2 : munchDotted (an ++ r2) = some (an, r2) := by
        unfold munchDotted
        exact munchDottedFuel_complete r2 hr2weak an hdan (an ++ r2).length le_rfl
      rw [hmd2]
  rw [hos]
  dsimp only
  unfold tailStep
  have hdw : r2.dropWhile isPySpace = tl := by
    have hcond : tl = [] ∨ ∃ c cs, tl = c :: cs ∧ isPySpace c = false := by
      rcases htl_head with rfl | ⟨cs, rfl⟩
      · exact Or.inl rfl
      · exact Or.inr ⟨'[', cs, rfl, by decide⟩
    rw [hr2]
    exact (takeWhile_dropWhile_of_split isPySpace ws tl hws hcond).2
  rcases hforms with ⟨rfl, rfl⟩ | ⟨p, rfl, hp, hn, hf⟩
  · rw [hdw, if_pos rfl]
  · rcases hf with rfl | rfl
    · rw [hdw, if_neg (by simp), (extrasTail_complete p hp hn).1]
    · rw [hdw, if_neg (by simp), (extrasTail_complete p hp hn).2]

/-! ## The reference parser against the claimed grammar (C6) -/

/-- C6 counterexample: the parser deviates from the claim in two ways.
First, the extras tags are NOT trimmed: `from_string` splits the payload
with `re.split(',\\s*', ...)`, which drops whitespace after each comma
but keeps whitespace before a comma and never trims the first tag, so
`"mod[x , y]"` yields the tags `["x ", "y"]` where the claimed trimmed
tags are `["x", "y"]`.  Second, the match is not strictly anchored: the
regex `$` tolerates a single trailing newline, so `"mod[a]\n"` parses
successfully instead of failing on trailing garbage. -/
theorem from_string_untrimmed_extras_and_trailing_newline :
    EntryPoint.from_string "mod[x , y]" "n" none =
      Except.ok ⟨"n", "mod", none, some ["x ", "y"], none⟩
  ∧ specTrimmedTags ("x , y".data) = ["x", "y"]
  ∧ EntryPoint.from_string ("mod[a]" ++ String.mk ['\n']) "n" none =
      Except.ok ⟨"n", "mod", none, some ["a"], none⟩ :=
  ⟨rfl, rfl, rfl⟩

/-- C6 (amended): `EntryPoint.from_string` succeeds exactly when the
string decomposes under the grammar `<module>[:<attribute>][ws][<extras>]`
with the regex `$` anchor (which also tolerates one trailing newline
after the extras bracket); on a decomposition it returns the EntryPoint
whose extras are the payload split on commas-plus-following-whitespace
(tags NOT trimmed on the other side), or `None` when no bracket was
present; on failure it raises `BadEntryPoint` carrying exactly the
offending raw string. -/
theorem from_string_grammar (epstr name : String) (distro : Option Distribution) :
    ((∃ m a e, GrammarDecomp epstr.data m a e) ↔
        ∃ ep, EntryPoint.from_string epstr name distro = Except.ok ep)
  ∧ (∀ m a e, GrammarDecomp epstr.data m a e →
        EntryPoint.from_string epstr name distro =
          Except.ok ⟨name, String.mk m, Option.map String.mk a,
            Option.map (fun p => List.map String.mk (splitCommaWs p)) e, distro⟩)
  ∧ (∀ err, EntryPoint.from_string epstr name distro = Except.error err →
        err = epstr) := by
  refine ⟨⟨?_, ?_⟩, ?_, ?_⟩
  · rintro ⟨m, a, e, h⟩
    refine ⟨⟨name, String.mk m, Option.map String.mk a,
      Option.map (fun p => List.map String.mk (splitCommaWs p)) e, distro⟩, ?_⟩
    unfold EntryPoint.from_string
    rw [entry_point_pattern_complete _ _ _ _ h]
  · rintro ⟨ep, hep⟩
    unfold EntryPoint.from_string at hep
    cases hmm : entry_point_pattern epstr.data with
    | none =>
      rw [hmm] at hep
      cases hep
    | some r =>
      exact ⟨r.modulename, r.objectname, r.extras,
        entry_point_pattern_sound _ _ _ _ (by rw [hmm])⟩
  · intro m a e h
    unfold EntryPoint.from_string
    rw [entry_point_pattern_complete _ _ _ _ h]
  · intro err herr
    unfold EntryPoint.from_string at herr
    split at herr
    · cases herr
    · exact (Except.error.inj herr).symm

/-- C6 witness: the amended theorem applied at `"a.b:c [x]"`, whose
grammar decomposition is exhibited explicitly. -/
theorem from_string_grammar_witness :
    EntryPoint.from_string "a.b:c [x]" "n" none =
      Except.ok ⟨"n", String.mk ['a', '.', 'b'],
        Option.map String.mk (some ['c']),
        Option.map (fun p => List.map String.mk (splitCommaWs p)) (some ['x']),
        none⟩ :=
  (from_string_grammar "a.b:c [x]" "n" none).2.1 ['a', '.', 'b'] (some ['c'])
    (some ['x'])
    ⟨[':', 'c', ' ', '[', 'x', ']'], [' ', '[', 'x', ']'], [' '], ['[', 'x', ']'],
      rfl,
      Dotted.cons ['a'] ['b'] (by decide) (by decide)
        (Dotted.single ['b'] (by decide) (by decide)),
      Or.inr ⟨['c'], rfl, Dotted.single ['c'] (by decide) (by decide), rfl⟩,
      rfl, by decide,
      Or.inr ⟨['x'], rfl, by decide, by decide, Or.inl rfl⟩⟩

end Entrypoints
